import Mathlib

/-!
Verification of the Task-Document Synchronization & Dependency-Graph Engine
(tasks-map). Documents are modelled as lists of characters (`Str`); every
mutation from `src/lib/utils.ts` is embedded as a total function on `Str`,
with JavaScript regular expressions replaced by explicit character scanners
of the same semantics, and `split(/\r?\n/)` / `join("\n")` modelled exactly.
-/

namespace TasksMap

/-- A document or line of text, as a list of characters. -/
abbrev Str := List Char

/-- Conversion from string literals used in the source. -/
def toChars (s : String) : Str := s.toList

/-- The characters matched by the JavaScript regex class in the source
(space, tab, newline, carriage return, vertical tab, form feed). -/
def isJsWs (c : Char) : Bool :=
  c = ' ' || c = '\t' || c = '\n' || c = '\r' || c = '\x0b' || c = '\x0c'

/-- JavaScript trimming of whitespace from both ends of a line. -/
def jsTrim (l : Str) : Str :=
  ((l.dropWhile isJsWs).reverse.dropWhile isJsWs).reverse

/-- Worker for line splitting: the regex first tries to match a carriage
return followed by a newline, then a bare newline; any other character is
content of the current line. -/
def splitLinesAux : Str → Str → List Str
  | [], acc => [acc.reverse]
  | '\r' :: '\n' :: rest, acc => acc.reverse :: splitLinesAux rest []
  | '\n' :: rest, acc => acc.reverse :: splitLinesAux rest []
  | c :: rest, acc => splitLinesAux rest (c :: acc)

/-- The source splits file content with the regex matching an optional
carriage return followed by a newline. -/
def splitLines (content : Str) : List Str := splitLinesAux content []

/-- The source joins lines back with a bare newline. -/
def joinLines : List Str → Str
  | [] => []
  | [l] => l
  | l :: l2 :: rest => l ++ '\n' :: joinLines (l2 :: rest)

/-- `Array.prototype.findIndex`, as an optional index. -/
def findIdxL (p : α → Bool) : List α → Option Nat
  | [] => none
  | x :: xs => if p x then some 0 else (findIdxL p xs).map (· + 1)

/-- Element access with a default, as JavaScript indexing. -/
def nthD (ls : List α) (i : Nat) (d : α) : α :=
  match ls, i with
  | [], _ => d
  | a :: _, 0 => a
  | _ :: as2, i + 1 => nthD as2 i d

/-- `Array.prototype.splice(i, 0, xs...)`: insert the block `xs` at `i`. -/
def spliceIn (i : Nat) (xs : List α) (ls : List α) : List α :=
  ls.take i ++ xs ++ ls.drop i

/-- `Array.prototype.splice(i, 1)`: remove the element at `i`. -/
def removeAt (i : Nat) (ls : List α) : List α :=
  ls.take i ++ ls.drop (i + 1)

/-- `String.prototype.includes`: substring test. -/
def isInfixB (p l : Str) : Bool := l.tails.any (fun t => p.isPrefixOf t)

/-- A trailing carriage return disappears when a line is re-split after a
join, because it merges with the following inserted newline. -/
def stripCR (l : Str) : Str :=
  if l.getLast? = some '\r' then l.dropLast else l

/-- Normal form reached by lines after one join/split round trip: every
line but the last loses one trailing carriage return. -/
def normLines : List Str → List Str
  | [] => []
  | [l] => [l]
  | l :: l2 :: rest => stripCR l :: normLines (l2 :: rest)

/-! ### Basic lemmas for the string machinery -/

theorem nthD_append_left {ls ts : List α} {i : Nat} {d : α} (h : i < ls.length) :
    nthD (ls ++ ts) i d = nthD ls i d := by
  induction ls generalizing i with
  | nil => simp at h
  | cons a as2 ih =>
    cases i with
    | zero => rfl
    | succ j =>
      simp only [List.cons_append, nthD]
      exact ih (by simpa using h)

theorem nthD_append_right {ls ts : List α} {i : Nat} {d : α} (h : ls.length ≤ i) :
    nthD (ls ++ ts) i d = nthD ts (i - ls.length) d := by
  induction ls generalizing i with
  | nil => simp
  | cons a as2 ih =>
    cases i with
    | zero => simp at h
    | succ j =>
      show nthD (as2 ++ ts) j d = _
      rw [ih (by simpa using h)]
      simp [Nat.succ_sub_succ]

theorem nthD_map {f : α → β} {ls : List α} {i : Nat} {d : β} (d2 : α)
    (h : i < ls.length) : nthD (ls.map f) i d = f (nthD ls i d2) := by
  induction ls generalizing i with
  | nil => simp at h
  | cons a as2 ih =>
    cases i with
    | zero => rfl
    | succ j => exact ih (by simpa using h)

theorem nthD_set_self {ls : List α} {i : Nat} {v d : α} (h : i < ls.length) :
    nthD (ls.set i v) i d = v := by
  induction ls generalizing i with
  | nil => simp at h
  | cons a as2 ih =>
    cases i with
    | zero => rfl
    | succ j => exact ih (by simpa using h)

theorem nthD_set_ne {ls : List α} {i j : Nat} {v d : α} (h : j ≠ i) :
    nthD (ls.set i v) j d = nthD ls j d := by
  induction ls generalizing i j with
  | nil => rfl
  | cons a as2 ih =>
    cases i with
    | zero =>
      cases j with
      | zero => exact absurd rfl h
      | succ k => rfl
    | succ i2 =>
      cases j with
      | zero => rfl
      | succ k => exact ih (fun hk => h (by omega))

theorem length_normLines (ls : List Str) : (normLines ls).length = ls.length := by
  induction ls with
  | nil => rfl
  | cons l rest ih =>
    cases rest with
    | nil => rfl
    | cons l2 rest2 => simpa [normLines] using ih

theorem stripCR_prefix (l : Str) : stripCR l <+: l := by
  unfold stripCR
  split
  · exact List.dropLast_prefix l
  · exact List.prefix_refl l

theorem stripCR_of_ne (l : Str) (h : l.getLast? ≠ some '\r') : stripCR l = l := by
  simp [stripCR, h]

theorem nthD_normLines_prefix (ls : List Str) (i : Nat) (d : Str) :
    nthD (normLines ls) i d <+: nthD ls i d := by
  induction ls generalizing i with
  | nil => exact List.prefix_refl _
  | cons l rest ih =>
    cases rest with
    | nil =>
      cases i with
      | zero => exact List.prefix_refl _
      | succ j => exact List.prefix_refl _
    | cons l2 rest2 =>
      cases i with
      | zero => exact stripCR_prefix l
      | succ j => exact ih j

/-- The last line survives a join/split round trip unchanged. -/
theorem nthD_normLines_last (ls : List Str) (d : Str) (h : 0 < ls.length) :
    nthD (normLines ls) (ls.length - 1) d = nthD ls (ls.length - 1) d := by
  induction ls with
  | nil => simp at h
  | cons l rest ih =>
    cases rest with
    | nil => rfl
    | cons l2 rest2 =>
      have h2 : 0 < (l2 :: rest2).length := by simp
      have := ih h2
      simpa [normLines, nthD, Nat.succ_sub_one] using this

/-- A line whose last character is not a carriage return survives
normalisation. -/
theorem nthD_normLines_of_last_ne (ls : List Str) (i : Nat) (d : Str)
    (h : (nthD ls i d).getLast? ≠ some '\r') :
    nthD (normLines ls) i d = nthD ls i d := by
  induction ls generalizing i with
  | nil => rfl
  | cons l rest ih =>
    cases rest with
    | nil => cases i <;> rfl
    | cons l2 rest2 =>
      cases i with
      | zero => exact stripCR_of_ne l (by simpa [nthD] using h)
      | succ j => exact ih j (by simpa [nthD] using h)

theorem stripCR_cons (a b : Char) (l : Str) :
    stripCR (a :: b :: l) = a :: stripCR (b :: l) := by
  unfold stripCR
  rw [List.getLast?_cons_cons, List.dropLast_cons₂]
  split
  · rfl
  · rfl

theorem stripCR_nil : stripCR ([] : Str) = [] := rfl

theorem stripCR_singleton {c : Char} (h : c ≠ '\r') : stripCR [c] = [c] := by
  unfold stripCR
  rw [if_neg (by simpa using h)]

/-- Splitting with a non-newline, non-boundary head pushes the head onto the
accumulator. -/
theorem splitLinesAux_content {c : Char} {rest acc : Str}
    (hn : c ≠ '\n') (h : c ≠ '\r' ∨ rest.head? ≠ some '\n') :
    splitLinesAux (c :: rest) acc = splitLinesAux rest (c :: acc) := by
  rw [splitLinesAux.eq_def]
  split
  · rename_i heq
    exact absurd heq (List.cons_ne_nil c rest)
  · rename_i heq
    injection heq with h1 h2
    rcases h with h | h
    · exact absurd h1 h
    · rw [h2] at h
      simp at h
  · rename_i heq
    injection heq with h1 h2
    exact absurd h1 hn
  · rename_i heq
    injection heq with h1 h2
    subst h1
    subst h2
    rfl

/-- Splitting a newline-free text yields a single line. -/
theorem splitLinesAux_no_newline {l : Str} (acc : Str) (h : '\n' ∉ l) :
    splitLinesAux l acc = [acc.reverse ++ l] := by
  induction l generalizing acc with
  | nil => simp [splitLinesAux]
  | cons c rest ih =>
    have hc : c ≠ '\n' := fun hc => h (by rw [hc]; exact List.mem_cons_self _ _)
    have hrest : '\n' ∉ rest := fun hr => h (List.mem_cons_of_mem c hr)
    have hhead : rest.head? ≠ some '\n' := by
      cases rest with
      | nil => simp
      | cons d r2 =>
        intro hd
        have hd2 : d = '\n' := by simpa using hd
        subst hd2
        exact hrest (List.mem_cons_self _ _)
    rw [splitLinesAux_content hc (Or.inr hhead), ih _ hrest]
    simp

/-- Splitting at a newline boundary: the first produced line is the text up
to the newline, with one trailing carriage return absorbed by the boundary. -/
theorem splitLinesAux_boundary {l : Str} (t acc : Str) (h : '\n' ∉ l) :
    splitLinesAux (l ++ '\n' :: t) acc =
      (acc.reverse ++ stripCR l) :: splitLinesAux t [] := by
  induction l generalizing acc with
  | nil => simp [splitLinesAux, stripCR_nil]
  | cons c rest ih =>
    have hc : c ≠ '\n' := fun hc => h (by rw [hc]; exact List.mem_cons_self _ _)
    have hrest : '\n' ∉ rest := fun hr => h (List.mem_cons_of_mem c hr)
    by_cases hr : c = '\r'
    · subst hr
      cases rest with
      | nil =>
        show splitLinesAux ('\r' :: '\n' :: t) acc = _
        simp [splitLinesAux, stripCR]
      | cons d r2 =>
        have hd : d ≠ '\n' := fun hd => hrest (by rw [hd]; exact List.mem_cons_self _ _)
        rw [show ('\r' :: d :: r2) ++ '\n' :: t = '\r' :: ((d :: r2) ++ '\n' :: t) by rfl,
          splitLinesAux_content (by decide) (Or.inr (by simpa using hd)), ih _ hrest]
        rw [stripCR_cons '\r' d r2]
        simp
    · rw [show (c :: rest) ++ '\n' :: t = c :: (rest ++ '\n' :: t) by rfl,
        splitLinesAux_content hc (Or.inl hr), ih _ hrest]
      have hstep : stripCR (c :: rest) = c :: stripCR rest := by
        cases rest with
        | nil => rw [stripCR_singleton hr, stripCR_nil]
        | cons d r2 => exact stripCR_cons c d r2
      rw [hstep]
      simp

/-- Round trip: joining newline-free lines and re-splitting yields the
normalised lines. -/
theorem splitLines_joinLines (ls : List Str) (hne : ls ≠ [])
    (h : ∀ l ∈ ls, '\n' ∉ l) :
    splitLines (joinLines ls) = normLines ls := by
  induction ls with
  | nil => exact absurd rfl hne
  | cons l rest ih =>
    cases rest with
    | nil =>
      show splitLinesAux l [] = [l]
      simpa using splitLinesAux_no_newline [] (h l (List.mem_cons_self l []))
    | cons l2 rest2 =>
      show splitLinesAux (l ++ '\n' :: joinLines (l2 :: rest2)) [] = _
      rw [splitLinesAux_boundary _ [] (h l (List.mem_cons_self _ _))]
      have ih2 := ih (by simp) (fun x hx => h x (List.mem_cons_of_mem l hx))
      simp only [splitLines] at ih2
      rw [ih2]
      rfl

/-- When no line ends in a carriage return, normalisation is the identity. -/
theorem normLines_eq_self (ls : List Str) (h : ∀ l ∈ ls, l.getLast? ≠ some '\r') :
    normLines ls = ls := by
  induction ls with
  | nil => rfl
  | cons l rest ih =>
    cases rest with
    | nil => rfl
    | cons l2 rest2 =>
      show stripCR l :: normLines (l2 :: rest2) = _
      rw [stripCR_of_ne l (h l (List.mem_cons_self _ _)),
        ih (fun x hx => h x (List.mem_cons_of_mem l hx))]

/-- Lines produced by splitting never contain a newline. -/
theorem splitLines_no_newline (content : Str) :
    ∀ l ∈ splitLines content, '\n' ∉ l := by
  suffices h : ∀ (n : Nat) (content acc : Str), content.length ≤ n → '\n' ∉ acc →
      ∀ l ∈ splitLinesAux content acc, '\n' ∉ l by
    exact h content.length content [] (Nat.le_refl _) (by simp)
  intro n
  induction n with
  | zero =>
    intro content acc hlen hacc l hl
    have : content = [] := List.length_eq_zero.mp (Nat.le_zero.mp hlen)
    subst this
    simp only [splitLinesAux, List.mem_singleton] at hl
    subst hl
    simpa using hacc
  | succ n ih =>
    intro content acc hlen hacc l hl
    cases content with
    | nil =>
      simp only [splitLinesAux, List.mem_singleton] at hl
      subst hl
      simpa using hacc
    | cons c rest =>
      by_cases hc : c = '\n'
      · subst hc
        rw [show splitLinesAux ('\n' :: rest) acc = acc.reverse :: splitLinesAux rest []
          from rfl] at hl
        rcases List.mem_cons.mp hl with hl | hl
        · subst hl; simpa using hacc
        · exact ih rest [] (by simpa using hlen) (by simp) l hl
      · by_cases hb : c = '\r' ∧ rest.head? = some '\n'
        · obtain ⟨hr, hh⟩ := hb
          subst hr
          cases rest with
          | nil => simp at hh
          | cons d r2 =>
            have hd : d = '\n' := by simpa using hh
            subst hd
            rw [show splitLinesAux ('\r' :: '\n' :: r2) acc =
              acc.reverse :: splitLinesAux r2 [] from rfl] at hl
            rcases List.mem_cons.mp hl with hl | hl
            · subst hl; simpa using hacc
            · exact ih r2 [] (by simp at hlen; omega) (by simp) l hl
        · have hside : c ≠ '\r' ∨ rest.head? ≠ some '\n' := by
            by_cases hr : c = '\r'
            · exact Or.inr (fun hh => hb ⟨hr, hh⟩)
            · exact Or.inl hr
          rw [splitLinesAux_content hc hside] at hl
          exact ih rest (c :: acc) (by simpa using hlen) (by
            intro hmem
            rcases List.mem_cons.mp hmem with hmem | hmem
            · exact hc hmem.symm
            · exact hacc hmem) l hl

/-- Splitting never yields an empty list of lines. -/
theorem splitLines_ne_nil (content : Str) : splitLines content ≠ [] := by
  suffices h : ∀ (n : Nat) (content acc : Str), content.length ≤ n →
      splitLinesAux content acc ≠ [] by
    exact h content.length content [] (Nat.le_refl _)
  intro n
  induction n with
  | zero =>
    intro content acc hlen
    have : content = [] := List.length_eq_zero.mp (Nat.le_zero.mp hlen)
    subst this
    simp [splitLinesAux]
  | succ n ih =>
    intro content acc hlen
    cases content with
    | nil => simp [splitLinesAux]
    | cons c rest =>
      by_cases hc : c = '\n'
      · subst hc
        rw [show splitLinesAux ('\n' :: rest) acc = acc.reverse :: splitLinesAux rest []
          from rfl]
        simp
      · by_cases hb : c = '\r' ∧ rest.head? = some '\n'
        · obtain ⟨hr, hh⟩ := hb
          subst hr
          cases rest with
          | nil => simp at hh
          | cons d r2 =>
            have hd : d = '\n' := by simpa using hh
            subst hd
            rw [show splitLinesAux ('\r' :: '\n' :: r2) acc =
              acc.reverse :: splitLinesAux r2 [] from rfl]
            simp
        · have hside : c ≠ '\r' ∨ rest.head? ≠ some '\n' := by
            by_cases hr : c = '\r'
            · exact Or.inr (fun hh => hb ⟨hr, hh⟩)
            · exact Or.inl hr
          rw [splitLinesAux_content hc hside]
          exact ih rest (c :: acc) (by simpa using hlen)

/-! ### Generic pattern scanners mirroring the JavaScript regexes -/

/-- Strip trailing whitespace only, as the JavaScript trailing-space regex. -/
def rstrip (l : Str) : Str := (l.reverse.dropWhile isJsWs).reverse

/-- Global regex replacement: scan left to right, on a match emit the
replacement and resume after the match, else keep the character. Fuel is the
input length; every matcher used consumes at least one character. -/
def replaceAllF (m : Str → Option Str) (repl : Str) : Nat → Str → Str
  | _, [] => []
  | 0, l => l
  | fuel + 1, c :: rest =>
    match m (c :: rest) with
    | some r => repl ++ replaceAllF m repl fuel r
    | none => c :: replaceAllF m repl fuel rest

def replaceAll (m : Str → Option Str) (repl : Str) (l : Str) : Str :=
  replaceAllF m repl l.length l

/-- Leftmost regex match: returns the text before the match, the payload of
the matcher, and the text after the match. -/
def scanFirstF (m : Str → Option (γ × Str)) : Nat → Str → Option (Str × γ × Str)
  | _, [] =>
    match m [] with
    | some (g, r) => some ([], g, r)
    | none => none
  | 0, _ => none
  | fuel + 1, c :: rest =>
    match m (c :: rest) with
    | some (g, r) => some ([], g, r)
    | none => (scanFirstF m fuel rest).map (fun pr => (c :: pr.1, pr.2.1, pr.2.2))

def scanFirst (m : Str → Option (γ × Str)) (l : Str) : Option (Str × γ × Str) :=
  scanFirstF m l.length l

/-- `String.prototype.matchAll`: all non-overlapping matches, left to right. -/
def matchAllF (m : Str → Option (γ × Str)) : Nat → Str → List γ
  | _, [] => []
  | 0, _ => []
  | fuel + 1, c :: rest =>
    match m (c :: rest) with
    | some (g, r) => g :: matchAllF m fuel r
    | none => matchAllF m fuel rest

def matchAllL (m : Str → Option (γ × Str)) (l : Str) : List γ :=
  matchAllF m l.length l

/-- `String.prototype.replace` with a plain string pattern: replace the
first literal occurrence. -/
def replaceFirstSub (pat repl : Str) : Str → Str
  | [] => if pat = [] then repl else []
  | c :: rest =>
    if pat.isPrefixOf (c :: rest) then repl ++ (c :: rest).drop pat.length
    else c :: replaceFirstSub pat repl rest

/-- `String.prototype.split(",")`. -/
def splitCommaAux : Str → Str → List Str
  | [], acc => [acc.reverse]
  | ',' :: rest, acc => acc.reverse :: splitCommaAux rest []
  | c :: rest, acc => splitCommaAux rest (c :: acc)

def splitComma (l : Str) : List Str := splitCommaAux l []

/-- `Array.prototype.join(",")`. -/
def joinComma : List Str → Str
  | [] => []
  | [x] => x
  | x :: y :: r => x ++ ',' :: joinComma (y :: r)

/-- `Array.prototype.join(", ")`. -/
def joinCommaSpace : List Str → Str
  | [] => []
  | [x] => x
  | x :: y :: r => x ++ ',' :: ' ' :: joinCommaSpace (y :: r)

def isAlnum (c : Char) : Bool :=
  ('a' ≤ c && c ≤ 'z') || ('A' ≤ c && c ≤ 'Z') || ('0' ≤ c && c ≤ '9')

/-- Exactly six alphanumeric characters, as the id token of the marker
grammar. -/
def take6Alnum : Str → Option (Str × Str)
  | a :: b :: c :: d :: e :: f :: rest =>
    if isAlnum a && isAlnum b && isAlnum c && isAlnum d && isAlnum e && isAlnum f then
      some ([a, b, c, d, e, f], rest)
    else none
  | _ => none

/-- A nonempty alphanumeric run, as the relaxed id token of the removal
regex. -/
def takeAlnumRun (l : Str) : Option (Str × Str) :=
  match l.takeWhile isAlnum with
  | [] => none
  | run => some (run, l.drop run.length)

/-! ### Line location (`findTaskLineByIdOrText`) -/

def emojiIdPat (taskId : Str) : Str := toChars "🆔 " ++ taskId

def dataviewIdPat (taskId : Str) : Str := toChars "[[id:: " ++ taskId ++ toChars "]]"

/-- Find the index of a task line by its ID: emoji format first, then
Dataview format, then a fallback substring match on the task text. -/
def findTaskLineByIdOrText (lines : List Str) (taskId taskText : Str) : Option Nat :=
  match findIdxL (fun l => isInfixB (emojiIdPat taskId) l) lines with
  | some i => some i
  | none =>
    match findIdxL (fun l => isInfixB (dataviewIdPat taskId) l) lines with
    | some i => some i
    | none => findIdxL (fun l => isInfixB taskText l) lines

/-! ### Status -/

inductive TaskStatus
  | todo
  | in_progress
  | done
  | canceled
deriving DecidableEq

/-- The `statusSymbols` table of the source. -/
def statusSymbols : TaskStatus → Str
  | .todo => toChars "[ ]"
  | .in_progress => toChars "[/]"
  | .canceled => toChars "[-]"
  | .done => toChars "[x]"

/-- Note-based status names used when rewriting frontmatter. -/
def noteStatusName : TaskStatus → Str
  | .todo => toChars "open"
  | .done => toChars "done"
  | .in_progress => toChars "in-progress"
  | .canceled => toChars "canceled"

/-- The character class of the status-replacement regex. -/
def isStatusChar (c : Char) : Bool :=
  c = ' ' || c = 'x' || c = '/' || c = '-'

/-- Replace the first checklist status marker on a line with the given
symbol. -/
def replaceStatusFirst (sym : Str) : Str → Str
  | '[' :: c :: ']' :: rest =>
    if isStatusChar c then sym ++ rest
    else '[' :: replaceStatusFirst sym (c :: ']' :: rest)
  | c :: rest => c :: replaceStatusFirst sym rest
  | [] => []

/-- The checklist-line scanner of `scanTasksFromFiles`: optional leading
whitespace, a dash, a space, and a bracketed status character. -/
def checklistStatusChar (line : Str) : Option Char :=
  match line.dropWhile isJsWs with
  | '-' :: ' ' :: '[' :: c :: ']' :: _ => if c = '\n' then none else some c
  | _ => none

/-- Modelled from the spec: `TaskFactory.parse` (src/lib/task-factory.ts is
not under src/) maps the single status character as space to todo, slash to
in_progress, dash to canceled and x to done. -/
def parseStatusChar : Char → Option TaskStatus
  | ' ' => some .todo
  | '/' => some .in_progress
  | '-' => some .canceled
  | 'x' => some .done
  | _ => none

/-- Parsing the status of an inline checklist line. -/
def parseInlineStatus (line : Str) : Option TaskStatus :=
  (checklistStatusChar line).bind parseStatusChar

/-! ### Frontmatter boundaries -/

def dashesLine : Str := toChars "---"

/-- Index of the closing boundary of the frontmatter block, scanning from
line one. -/
def fmEndIdx (lines : List Str) : Option Nat :=
  (findIdxL (fun l => decide (l = dashesLine)) (lines.drop 1)).map (· + 1)

/-- Both frontmatter boundaries must be present; the start must be line
zero. Returns the index of the closing boundary. -/
def fmBounds (lines : List Str) : Option Nat :=
  if nthD lines 0 [] = dashesLine then fmEndIdx lines else none

/-- First index `i` with `start ≤ i < stop` whose line satisfies `p`. -/
def findIdxFromTo (p : Str → Bool) (lines : List Str) (start stop : Nat) : Option Nat :=
  (findIdxL p ((lines.drop start).take (stop - start))).map (· + start)

/-! ### Status mutation -/

/-- Inline branch of `updateTaskStatusInVault`. -/
def updateStatusInlineContent (taskId taskText : Str) (s : TaskStatus)
    (content : Str) : Str :=
  let lines := splitLines content
  match findTaskLineByIdOrText lines taskId taskText with
  | none => content
  | some i =>
    joinLines (lines.set i (replaceStatusFirst (statusSymbols s) (nthD lines i [])))

/-- Note branch of `updateTaskStatusInVault`. -/
def updateStatusNoteContent (s : TaskStatus) (content : Str) : Str :=
  let lines := splitLines content
  match fmBounds lines with
  | none => content
  | some e =>
    match findIdxFromTo (fun l => (toChars "status:").isPrefixOf l) lines 1 e with
    | none => joinLines lines
    | some i => joinLines (lines.set i (toChars "status: " ++ noteStatusName s))

/-! ### Star mutation -/

/-- Inline branch of `addStarToTaskInVault`. -/
def addStarInlineContent (taskId taskText : Str) (content : Str) : Str :=
  let lines := splitLines content
  match findTaskLineByIdOrText lines taskId taskText with
  | none => content
  | some i =>
    if isInfixB (toChars "⭐") (nthD lines i []) then content
    else joinLines (lines.set i (nthD lines i [] ++ toChars " ⭐"))

/-- One match of the star-removal regex at the current position: optional
whitespace, the star glyph, optional whitespace. -/
def matchStarAt (l : Str) : Option Str :=
  match l.dropWhile isJsWs with
  | '⭐' :: r => some (r.dropWhile isJsWs)
  | _ => none

/-- Inline branch of `removeStarFromTaskInVault`. -/
def removeStarInlineContent (taskId taskText : Str) (content : Str) : Str :=
  let lines := splitLines content
  match findTaskLineByIdOrText lines taskId taskText with
  | none => content
  | some i =>
    joinLines (lines.set i (jsTrim (replaceAll matchStarAt (toChars " ") (nthD lines i []))))

/-- Note branch of `addStarToTaskInVault`. -/
def addStarNoteContent (content : Str) : Str :=
  let lines := splitLines content
  match fmBounds lines with
  | none => content
  | some e =>
    match findIdxFromTo (fun l => (toChars "starred:").isPrefixOf l) lines 1 e with
    | some i => joinLines (lines.set i (toChars "starred: true"))
    | none =>
      let ins :=
        match findIdxFromTo (fun l => (toChars "priority:").isPrefixOf l) lines 1 e with
        | some p => p + 1
        | none => e
      joinLines (spliceIn ins [toChars "starred: true"] lines)

/-- Note branch of `removeStarFromTaskInVault`. -/
def removeStarNoteContent (content : Str) : Str :=
  let lines := splitLines content
  match fmBounds lines with
  | none => content
  | some e =>
    match findIdxFromTo (fun l => (toChars "starred:").isPrefixOf l) lines 1 e with
    | some i => joinLines (lines.set i (toChars "starred: false"))
    | none => joinLines lines

/-! ### Tag mutation, note branch -/

def tagsKey : Str := toChars "tags:"

/-- A frontmatter list item line: two whitespace characters, a dash and a
space. -/
def itemTest (l : Str) : Bool :=
  match l with
  | a :: b :: '-' :: ' ' :: _ => isJsWs a && isJsWs b
  | _ => false

/-- A JavaScript line terminator, which the dot of a regex never matches:
line feed, carriage return, and the Unicode separators U+2028 and U+2029. -/
def isLineTerm (c : Char) : Bool :=
  c = '\n' || c = '\r' || c = '\u2028' || c = '\u2029'

/-- The captured tag of a frontmatter list item line: the nonempty rest
after the item prefix, which must not contain any line terminator, since
the dot of the capture matches no line terminator. -/
def itemCapture (l : Str) : Option Str :=
  match l with
  | a :: b :: '-' :: ' ' :: rest =>
    if isJsWs a && isJsWs b && !(decide (rest = [])) && !(rest.any isLineTerm) then
      some rest
    else none
  | _ => none

def itemLine (tag : Str) : Str := toChars "  - " ++ tag

/-- The duplicate scan of `addTagToTaskInVault`: walk the list items after
`tags:`; finding the tag aborts (`none`), otherwise the insertion index past
the last item is returned. The fuel is at least the scan range. -/
def tagScanF (lines : List Str) (tag : Str) (e : Nat) : Nat → Nat → Option Nat
  | 0, j => some j
  | fuel + 1, j =>
    if j < e && itemTest (nthD lines j []) then
      match itemCapture (nthD lines j []) with
      | some cap => if cap = tag then none else tagScanF lines tag e fuel (j + 1)
      | none => tagScanF lines tag e fuel (j + 1)
    else some j

/-- The removal scan of `removeTagFromTaskInVault`: walk the list items
after `tags:` and return the first item equal to the tag. -/
def tagFindF (lines : List Str) (tag : Str) (e : Nat) : Nat → Nat → Option Nat
  | 0, _ => none
  | fuel + 1, j =>
    if j < e && itemTest (nthD lines j []) then
      match itemCapture (nthD lines j []) with
      | some cap => if cap = tag then some j else tagFindF lines tag e fuel (j + 1)
      | none => tagFindF lines tag e fuel (j + 1)
    else none

/-- Note branch of `addTagToTaskInVault`. -/
def addTagNoteContent (tag : Str) (content : Str) : Str :=
  let lines := splitLines content
  match fmBounds lines with
  | none => content
  | some e =>
    match findIdxFromTo (fun l => decide (l = tagsKey)) lines 1 e with
    | some i =>
      match tagScanF lines tag e e (i + 1) with
      | none => content
      | some j => joinLines (spliceIn j [itemLine tag] lines)
    | none => joinLines (spliceIn e [tagsKey, itemLine tag] lines)

/-- Note branch of `removeTagFromTaskInVault`. -/
def removeTagNoteContent (tag : Str) (content : Str) : Str :=
  let lines := splitLines content
  match fmBounds lines with
  | none => content
  | some e =>
    match findIdxFromTo (fun l => decide (l = tagsKey)) lines 1 e with
    | none => joinLines lines
    | some i =>
      match tagFindF lines tag e e (i + 1) with
      | none => joinLines lines
      | some j => joinLines (removeAt j lines)

/-! ### Tag mutation, inline branch -/

/-- Modelled from the spec: the removal regex for the emoji id marker lives
in src/lib/task-regex.ts, which is not under src/; per the marker grammar it
removes the id glyph, optional whitespace and the following alphanumeric
token. -/
def matchEmojiTokenAt (l : Str) : Option Str :=
  match l with
  | '🆔' :: r =>
    match takeAlnumRun (r.dropWhile isJsWs) with
    | some (_, rest) => some rest
    | none => none
  | _ => none

/-- Modelled from the spec: the removal regex for the Dataview id marker
(src/lib/task-regex.ts is not under src/); it removes a bracketed
`id` field carrying an alphanumeric token. -/
def matchDvTokenAt (l : Str) : Option Str :=
  if (toChars "[[id::").isPrefixOf l then
    match takeAlnumRun ((l.drop 6).dropWhile isJsWs) with
    | some (_, r2) =>
      if (toChars "]]").isPrefixOf r2 then some (r2.drop 2) else none
    | none => none
  else none

/-- Modelled from the spec: the tag-removal regex (src/lib/task-regex.ts is
not under src/); it removes a hash sign followed by a run of non-whitespace
characters. -/
def matchHashTagAt (l : Str) : Option Str :=
  match l with
  | '#' :: r =>
    match r.takeWhile (fun c => !isJsWs c) with
    | [] => none
    | run => some (r.drop run.length)
  | _ => none

/-- One whitespace run, for whitespace normalisation. -/
def matchWsRunAt (l : Str) : Option Str :=
  match l with
  | c :: _ => if isJsWs c then some (l.dropWhile isJsWs) else none
  | [] => none

/-- Modelled from the spec: the normalised core text used by the fallback
line locator, with every known marker stripped and whitespace collapsed. -/
def coreOf (l : Str) : Str :=
  jsTrim (replaceAll matchWsRunAt (toChars " ")
    (replaceAll matchHashTagAt []
      (replaceAll matchDvTokenAt []
        (replaceAll matchEmojiTokenAt [] l))))

/-- The fallback locator of the inline tag mutations: compare marker-free
core texts by containment in either direction. -/
def fallbackFind (taskText : Str) (lines : List Str) : Option Nat :=
  findIdxL (fun l =>
    isInfixB (coreOf taskText) (coreOf l) || isInfixB (coreOf l) (coreOf taskText)) lines

/-- Inline branch of `addTagToTaskInVault`. -/
def addTagInlineContent (taskId taskText tag : Str) (content : Str) : Str :=
  let lines := splitLines content
  let idx :=
    match findTaskLineByIdOrText lines taskId taskText with
    | some i => some i
    | none => fallbackFind taskText lines
  match idx with
  | none => content
  | some i =>
    let cur := nthD lines i []
    let ftag := if tag.head? = some '#' then tag else '#' :: tag
    joinLines (lines.set i (jsTrim cur ++ ' ' :: ftag))

/-- One match of the inline tag-removal regex built in
`removeTagFromTaskInVault`: optional whitespace, the hash-prefixed literal
tag, an optional slash-subtag, and a whitespace-or-end lookahead. -/
def matchRemovedTagAt (tag : Str) (l : Str) : Option Str :=
  let l1 := l.dropWhile isJsWs
  match l1 with
  | '#' :: r =>
    if tag.isPrefixOf r then
      let r2 := r.drop tag.length
      let r3 :=
        match r2 with
        | '/' :: r4 => r4.drop (r4.takeWhile (fun c => !isJsWs c)).length
        | _ => r2
      match r3 with
      | [] => some []
      | c :: _ => if isJsWs c then some r3 else none
    else none
  | _ => none

/-- Inline branch of `removeTagFromTaskInVault`. -/
def removeTagInlineContent (taskId taskText tag : Str) (content : Str) : Str :=
  let lines := splitLines content
  let idx :=
    match findTaskLineByIdOrText lines taskId taskText with
    | some i => some i
    | none => fallbackFind taskText lines
  match idx with
  | none => content
  | some i =>
    let cur := nthD lines i []
    joinLines (lines.set i
      (jsTrim (replaceAll matchWsRunAt (toChars " ")
        (replaceAll (matchRemovedTagAt tag) [] cur))))

/-! ### Dependency markers (`addSignToTaskInFile`, `removeSignFromTaskInFile`) -/

inductive SignType
  | stop
  | id
deriving DecidableEq

inductive LinkStyle
  | individual
  | csv
  | dataview
deriving DecidableEq

/-- The strict emoji id test of `addSignToTaskInFile`: the id glyph,
optional whitespace, exactly six alphanumerics. -/
def matchEmojiId6At (l : Str) : Option Str :=
  match l with
  | '🆔' :: r =>
    match take6Alnum (r.dropWhile isJsWs) with
    | some (_, rest) => some rest
    | none => none
  | _ => none

def testEmojiId6 (l : Str) : Bool := l.tails.any (fun t => (matchEmojiId6At t).isSome)

/-- The strict Dataview id test: a bracketed `id` field with exactly six
alphanumerics. -/
def matchDvId6At (l : Str) : Option Str :=
  if (toChars "[[id::").isPrefixOf l then
    match take6Alnum ((l.drop 6).dropWhile isJsWs) with
    | some (_, r2) =>
      if (toChars "]]").isPrefixOf r2 then some (r2.drop 2) else none
    | none => none
  else none

def testDvId6 (l : Str) : Bool := l.tails.any (fun t => (matchDvId6At t).isSome)

/-- The comma-separated continuation of an id list. When `allowWs` is set,
whitespace may follow each comma (the Dataview dialect); the emoji csv
dialect allows none. The consumed text is returned verbatim so that the
capture matches the JavaScript group. -/
def csvMoreF (allowWs : Bool) : Nat → Str → Str × Str
  | 0, l => ([], l)
  | fuel + 1, l =>
    match l with
    | ',' :: r =>
      let ws := if allowWs then r.takeWhile isJsWs else []
      let r2 := if allowWs then r.dropWhile isJsWs else r
      match take6Alnum r2 with
      | some (ids, r3) =>
        let gr := csvMoreF allowWs fuel r3
        (',' :: (ws ++ ids) ++ gr.1, gr.2)
      | none => ([], l)
    | _ => ([], l)

/-- One match of the Dataview dependency regex, returning the captured id
list and the rest after the closing brackets. -/
def matchDependsOnAt (l : Str) : Option (Str × Str) :=
  if (toChars "[[dependsOn::").isPrefixOf l then
    let r := (l.drop 13).dropWhile isJsWs
    match take6Alnum r with
    | some (ids, r2) =>
      let gr := csvMoreF true r2.length r2
      if (toChars "]]").isPrefixOf gr.2 then some (ids ++ gr.1, gr.2.drop 2) else none
    | none => none
  else none

def testDependsOn (l : Str) : Bool := (scanFirst matchDependsOnAt l).isSome

/-- One match of the emoji csv dependency regex: the stop glyph, optional
whitespace, and a comma-joined list of six-character ids. -/
def matchCsvAt (l : Str) : Option (Str × Str) :=
  match l with
  | '⛔' :: r =>
    match take6Alnum (r.dropWhile isJsWs) with
    | some (ids, r2) =>
      let gr := csvMoreF false r2.length r2
      some (ids ++ gr.1, gr.2)
    | none => none
  | _ => none

/-- One match of the individual dependency regex, returning the full match
and the captured id. -/
def matchIndivAt (l : Str) : Option ((Str × Str) × Str) :=
  match l with
  | '⛔' :: r =>
    match take6Alnum (r.dropWhile isJsWs) with
    | some (ids, rest) => some (('⛔' :: r.takeWhile isJsWs ++ ids, ids), rest)
    | none => none
  | _ => none

/-- The relaxed continuation used on removal: ids of any positive length. -/
def csvAnyMoreF : Nat → Str → Str × Str
  | 0, l => ([], l)
  | fuel + 1, l =>
    match l with
    | ',' :: r =>
      match takeAlnumRun r with
      | some (ids, r2) =>
        let gr := csvAnyMoreF fuel r2
        (',' :: ids ++ gr.1, gr.2)
      | none => ([], l)
    | _ => ([], l)

/-- The relaxed emoji csv regex of `removeSignFromTaskInFile`: ids are any
nonempty alphanumeric runs. Returns the full match and the captured list. -/
def matchCsvAnyAt (l : Str) : Option ((Str × Str) × Str) :=
  match l with
  | '⛔' :: r =>
    match takeAlnumRun (r.dropWhile isJsWs) with
    | some (ids, r2) =>
      let gr := csvAnyMoreF r2.length r2
      some ((('⛔' :: r.takeWhile isJsWs) ++ ids ++ gr.1, ids ++ gr.1), gr.2)
    | none => none
  | _ => none

/-- `addSignToTaskInFile` as a pure transformation of the file content. -/
def addSignInlineContent (style : LinkStyle) (ty : SignType) (hash : Str)
    (taskText : Str) (content : Str) : Str :=
  let lines := splitLines content
  match findIdxL (fun l => isInfixB taskText l) lines with
  | none => content
  | some i =>
    let line := nthD lines i []
    match ty with
    | .id =>
      if testEmojiId6 line || testDvId6 line then content
      else
        match style with
        | .dataview =>
          let sign := toChars "[[id:: " ++ hash ++ toChars "]]"
          if isInfixB sign line then content
          else joinLines (lines.set i (line ++ ' ' :: sign))
        | _ =>
          let sign := toChars "🆔 " ++ hash
          if isInfixB sign line then content
          else joinLines (lines.set i (line ++ ' ' :: sign))
    | .stop =>
      if style = LinkStyle.dataview || testDvId6 line || testDependsOn line then
        match scanFirst matchDependsOnAt line with
        | some (before, cap, after) =>
          let existingIds := (splitComma cap).map jsTrim
          if hash ∈ existingIds then joinLines lines
          else
            joinLines (lines.set i
              (before ++ toChars "[[dependsOn:: " ++
                joinCommaSpace (existingIds ++ [hash]) ++ toChars "]]" ++ after))
        | none =>
          joinLines (lines.set i (line ++ toChars " [[dependsOn:: " ++ hash ++ toChars "]]"))
      else
        match style with
        | .csv =>
          match scanFirst matchCsvAt line with
          | some (before, cap, after) =>
            let existingIds := (splitComma cap).map jsTrim
            if hash ∈ existingIds then joinLines lines
            else
              joinLines (lines.set i
                (before ++ toChars "⛔ " ++ joinComma (existingIds ++ [hash]) ++ after))
          | none =>
            let ms := matchAllL matchIndivAt line
            if ms.isEmpty then
              joinLines (lines.set i (line ++ toChars " ⛔ " ++ hash))
            else
              let existingIds := ms.map (fun m => m.2)
              let ids2 := if hash ∈ existingIds then existingIds else existingIds ++ [hash]
              let updated := ms.foldl (fun acc m => replaceFirstSub m.1 [] acc) line
              joinLines (lines.set i (jsTrim updated ++ toChars " ⛔ " ++ joinComma ids2))
        | _ =>
          let sign := toChars "⛔ " ++ hash
          if isInfixB sign line then content
          else joinLines (lines.set i (line ++ ' ' :: sign))

/-- `removeSignFromTaskInFile` as a pure transformation of the file
content. -/
def removeSignInlineContent (ty : SignType) (hash : Str) (taskText : Str)
    (content : Str) : Str :=
  let lines := splitLines content
  match findIdxL (fun l => isInfixB taskText l) lines with
  | none => content
  | some i =>
    let line := nthD lines i []
    match ty with
    | .id =>
      let emojiSign := toChars "🆔 " ++ hash
      if isInfixB emojiSign line then
        joinLines (lines.set i (rstrip (replaceFirstSub emojiSign [] line)))
      else
        let dvSign := toChars "[[id:: " ++ hash ++ toChars "]]"
        if isInfixB dvSign line then
          joinLines (lines.set i (rstrip (replaceFirstSub dvSign [] line)))
        else joinLines lines
    | .stop =>
      match scanFirst matchDependsOnAt line with
      | some (before, cap, after) =>
        let existingIds := (splitComma cap).map jsTrim
        let filteredIds := existingIds.filter (fun x => !(x = hash))
        if filteredIds.isEmpty then
          joinLines (lines.set i (rstrip (before ++ after)))
        else if !(filteredIds.length = existingIds.length) then
          joinLines (lines.set i
            (before ++ toChars "[[dependsOn:: " ++ joinCommaSpace filteredIds ++
              toChars "]]" ++ after))
        else joinLines lines
      | none =>
        match scanFirst matchCsvAnyAt line with
        | some (before, fg, after) =>
          let existingIds := (splitComma fg.2).map jsTrim
          let filteredIds := existingIds.filter (fun x => !(x = hash))
          if filteredIds.isEmpty then
            joinLines (lines.set i (rstrip (before ++ after)))
          else if !(filteredIds.length = existingIds.length) then
            joinLines (lines.set i
              (before ++ toChars "⛔ " ++ joinComma filteredIds ++ after))
          else joinLines lines
        | none =>
          let sign := toChars "⛔ " ++ hash
          if isInfixB sign line then
            joinLines (lines.set i (rstrip (replaceFirstSub sign [] line)))
          else joinLines lines

/-! ### Dependency mutation, note branch -/

/-- An exact `blockedBy:` key line, allowing only trailing whitespace. -/
def blockedByKeyTest (l : Str) : Bool :=
  (toChars "blockedBy:").isPrefixOf l && (l.drop 10).all isJsWs

/-- A `- uid:` list item with exactly two leading whitespace characters. -/
def uidItemTest (l : Str) : Bool :=
  match l with
  | a :: b :: rest => isJsWs a && isJsWs b && (toChars "- uid:").isPrefixOf rest
  | _ => false

/-- A `reltype:` line with exactly four leading whitespace characters. -/
def reltypeItemTest (l : Str) : Bool :=
  match l with
  | a :: b :: c :: d :: rest =>
    isJsWs a && isJsWs b && isJsWs c && isJsWs d && (toChars "reltype:").isPrefixOf rest
  | _ => false

/-- A `- uid:` line with any leading whitespace (removal is tolerant of
malformed indentation). -/
def uidAnyTest (l : Str) : Bool :=
  (toChars "- uid:").isPrefixOf (l.dropWhile isJsWs)

/-- A `reltype:` line with any leading whitespace. -/
def reltypeAnyTest (l : Str) : Bool :=
  (toChars "reltype:").isPrefixOf (l.dropWhile isJsWs)

/-- Walk past the existing `blockedBy` entries to find the insertion
index. -/
def depWalkF (lines : List Str) (e len2 : Nat) : Nat → Nat → Nat
  | 0, j => j
  | fuel + 1, j =>
    if j < e && uidItemTest (nthD lines j []) then
      if j + 1 < len2 && reltypeItemTest (nthD lines (j + 1) []) then
        depWalkF lines e len2 fuel (j + 2)
      else depWalkF lines e len2 fuel (j + 1)
    else j

/-- `addDependencyToNoteTask` as a pure transformation: records a
`blockedBy` entry referring to the blocking task text. -/
def addDependencyNoteContent (fromText : Str) (content : Str) : Str :=
  let lines := splitLines content
  match fmBounds lines with
  | none => content
  | some e =>
    let tid := toChars "[[" ++ fromText ++ toChars "]]"
    if (findIdxFromTo (fun l => isInfixB (toChars "uid:") l && isInfixB tid l)
        lines 1 e).isSome then content
    else
      let uidLine := toChars "  - uid: \"" ++ tid ++ toChars "\""
      let reltypeLine := toChars "    reltype: FINISHTOSTART"
      match findIdxL blockedByKeyTest ((lines.drop 1).take (e - 1)) with
      | none => joinLines (spliceIn e [toChars "blockedBy:", uidLine, reltypeLine] lines)
      | some b =>
        let ins := depWalkF lines e lines.length e (1 + b + 1)
        joinLines (spliceIn ins [uidLine, reltypeLine] lines)

/-- `split("/")` for path handling. -/
def splitSlashAux : Str → Str → List Str
  | [], acc => [acc.reverse]
  | '/' :: rest, acc => acc.reverse :: splitSlashAux rest []
  | c :: rest, acc => splitSlashAux rest (c :: acc)

def splitSlash (l : Str) : List Str := splitSlashAux l []

/-- The basename of a task path: drop a `.md` suffix and take the last path
segment. -/
def basenameOf (p : Str) : Str :=
  let q := if (toChars ".md").isSuffixOf p then p.take (p.length - 3) else p
  (splitSlash q).getLastD []

/-- The removal loop of `removeDependencyFromNoteTask`: on a matching
`- uid:` line remove it and a following `reltype:` line, decrementing the
block end by two. -/
def remDepF (bn : Str) : Nat → Nat → Nat → List Str → List Str
  | 0, _, _, lines => lines
  | fuel + 1, i, e, lines =>
    if i < e then
      if uidAnyTest (nthD lines i []) &&
          isInfixB (toChars "[[" ++ bn ++ toChars "]]") (nthD lines i []) then
        let lines2 := removeAt i lines
        let lines3 :=
          if i < lines2.length && reltypeAnyTest (nthD lines2 i []) then removeAt i lines2
          else lines2
        remDepF bn fuel i (e - 2) lines3
      else remDepF bn fuel (i + 1) e lines
    else lines

/-- `removeDependencyFromNoteTask` as a pure transformation. -/
def removeDependencyNoteContent (fromTaskId : Str) (content : Str) : Str :=
  let lines := splitLines content
  match fmBounds lines with
  | none => content
  | some e => joinLines (remDepF (basenameOf fromTaskId) (e + 1) 1 e lines)

/-! ### Graph data model -/

inductive LayoutDir
  | horizontal
  | vertical
deriving DecidableEq

inductive TagColorMode
  | random
  | static
deriving DecidableEq

inductive TaskKind
  | inline
  | note
deriving DecidableEq

structure Task where
  id : Str
  kind : TaskKind
  text : Str
  summary : Str
  tags : List Str
  status : TaskStatus
  priority : Str
  link : Str
  incomingLinks : List Str
  starred : Bool
  line : Option Nat
deriving DecidableEq

structure EdgeData where
  hash : Str
  layoutDirection : LayoutDir
  debugVisualization : Bool
deriving DecidableEq

structure TaskEdge where
  id : Str
  source : Str
  target : Str
  kind : Str
  data : EdgeData
deriving DecidableEq

structure Position where
  x : Int
  y : Int
deriving DecidableEq

inductive HandlePos
  | top
  | bottom
  | left
  | right
deriving DecidableEq

structure NodeData where
  task : Option Task
  layoutDirection : LayoutDir
  showPriorities : Bool
  showTags : Bool
  debugVisualization : Bool
  tagColorMode : TagColorMode
  tagColorSeed : Int
  tagStaticColor : Str
deriving DecidableEq

structure RFNode where
  id : Str
  position : Position
  data : NodeData
  kind : Str
  sourcePosition : HandlePos
  targetPosition : HandlePos
  draggable : Bool
deriving DecidableEq

structure SavedNode where
  id : Str
  position : Position
  taskId : Str
  taskData : Option Task
deriving DecidableEq

structure ViewSettings where
  layoutDirection : LayoutDir
  showPriorities : Bool
  showTags : Bool
  debugVisualization : Bool
  tagColorMode : TagColorMode
  tagColorSeed : Int
  tagStaticColor : Str
deriving DecidableEq

/-- The edge record pushed by `createEdgesFromTasks` for one incoming
link: id and hash are both `source-target`. -/
def mkTaskEdge (ld : LayoutDir) (dv : Bool) (t : Task) (src : Str) : TaskEdge :=
  { id := src ++ '-' :: t.id
    source := src
    target := t.id
    kind := toChars "hash"
    data := { hash := src ++ '-' :: t.id
              layoutDirection := ld
              debugVisualization := dv } }

/-- `createEdgesFromTasks`: one edge pushed per entry of each task's
incoming links. -/
def createEdgesFromTasks (tasks : List Task) (ld : LayoutDir) (dv : Bool) :
    List TaskEdge :=
  tasks.foldl (fun acc t =>
    t.incomingLinks.foldl (fun acc2 p =>
      acc2 ++ [mkTaskEdge ld dv t p]) acc) []

/-- The fixed node width of the rendering layer. -/
def NODEWIDTH : Int := 250

/-- The fixed node height of the rendering layer. -/
def NODEHEIGHT : Int := 120

/-- `getLayoutedElements`, with the external layout algorithm abstracted as
an oracle from node ids to placed coordinates. -/
def getLayoutedElements (layoutOut : Str → Option (Int × Int))
    (nodes : List RFNode) : List RFNode :=
  nodes.map fun node =>
    match layoutOut node.id with
    | none => { node with position := { x := 0, y := 0 } }
    | some (x, y) => { node with position := { x := x - 90, y := y - 30 } }

/-- The node-refresh step of `updateNodes`: replace the task payload of
nodes whose id matches a freshly scanned task, preserving everything else. -/
def updateNodesPure (scannedTasks : List Task) (nodes : List RFNode) :
    List RFNode :=
  nodes.map fun node =>
    match node.data.task with
    | none => node
    | some _ =>
      match scannedTasks.find? (fun t => decide (t.id = node.id)) with
      | some t => { node with data := { node.data with task := some t } }
      | none => node

def mkNodeData (task : Option Task) (s : ViewSettings) : NodeData :=
  { task := task
    layoutDirection := s.layoutDirection
    showPriorities := s.showPriorities
    showTags := s.showTags
    debugVisualization := s.debugVisualization
    tagColorMode := s.tagColorMode
    tagColorSeed := s.tagColorSeed
    tagStaticColor := s.tagStaticColor }

/-- The node restoration of `loadSavedData`: only saved nodes carrying task
data are rebuilt, at their saved position. -/
def restoreNodes (saved : List SavedNode) (s : ViewSettings) : List RFNode :=
  (saved.filter (fun n => n.taskData.isSome)).map fun sn =>
    { id := sn.id
      position := sn.position
      data := mkNodeData sn.taskData s
      kind := toChars "task"
      sourcePosition := if s.layoutDirection = LayoutDir.vertical then HandlePos.bottom
                        else HandlePos.right
      targetPosition := if s.layoutDirection = LayoutDir.vertical then HandlePos.top
                        else HandlePos.left
      draggable := true }

/-- `addTaskToCanvas`: resolve the task, reject ids already on the canvas,
otherwise append a new node. -/
def addTaskToCanvasPure (tasks : List Task) (nodes : List RFNode)
    (taskId : Str) (pos : Position) (taskData : Option Task)
    (s : ViewSettings) : List RFNode :=
  match (tasks.find? (fun t => decide (t.id = taskId))).orElse (fun _ => taskData) with
  | none => nodes
  | some task =>
    if nodes.any (fun n => decide (n.id = task.id)) then nodes
    else
      nodes ++ [{ id := task.id
                  position := pos
                  data := mkNodeData (some task) s
                  kind := toChars "task"
                  sourcePosition := if s.layoutDirection = LayoutDir.vertical
                                    then HandlePos.bottom else HandlePos.right
                  targetPosition := if s.layoutDirection = LayoutDir.vertical
                                    then HandlePos.top else HandlePos.left
                  draggable := true }]

/-- `deleteNode`: drop the node with the given id. -/
def deleteNodePure (nodeId : Str) (nodes : List RFNode) : List RFNode :=
  nodes.filter (fun n => !(decide (n.id = nodeId)))

/-! ### Sample data reused by concrete instantiations -/

def sampleSettings : ViewSettings :=
  { layoutDirection := LayoutDir.horizontal
    showPriorities := true
    showTags := true
    debugVisualization := false
    tagColorMode := TagColorMode.random
    tagColorSeed := 42
    tagStaticColor := toChars "#3b82f6" }

def sampleTask : Task :=
  { id := toChars "A"
    kind := TaskKind.inline
    text := toChars "t"
    summary := []
    tags := []
    status := TaskStatus.todo
    priority := []
    link := toChars "f.md"
    incomingLinks := []
    starred := false
    line := none }

def defaultNode : RFNode :=
  { id := []
    position := { x := 0, y := 0 }
    data := mkNodeData none sampleSettings
    kind := []
    sourcePosition := HandlePos.right
    targetPosition := HandlePos.left
    draggable := true }

/-! ### Characterisation of `findIdxL` -/

theorem findIdxL_some {p : α → Bool} {ls : List α} {i : Nat} (d : α)
    (h : findIdxL p ls = some i) :
    i < ls.length ∧ p (nthD ls i d) = true ∧ ∀ j, j < i → p (nthD ls j d) = false := by
  induction ls generalizing i with
  | nil => simp [findIdxL] at h
  | cons x xs ih =>
    simp only [findIdxL] at h
    by_cases hp : p x
    · rw [if_pos hp] at h
      injection h with h
      subst h
      exact ⟨by simp, hp, fun j hj => absurd hj (by omega)⟩
    · rw [if_neg hp] at h
      cases hfi : findIdxL p xs with
      | none => rw [hfi] at h; simp at h
      | some i2 =>
        rw [hfi] at h
        have h2 : some (i2 + 1) = some i := h
        injection h2 with h2
        subst h2
        obtain ⟨h1, h2, h3⟩ := ih hfi
        refine ⟨by simpa using h1, h2, fun j hj => ?_⟩
        cases j with
        | zero => simpa using hp
        | succ k => exact h3 k (by omega)

theorem findIdxL_of {p : α → Bool} {ls : List α} (d : α) (i : Nat)
    (hlen : i < ls.length) (hp : p (nthD ls i d) = true)
    (hj : ∀ j, j < i → p (nthD ls j d) = false) :
    findIdxL p ls = some i := by
  induction ls generalizing i with
  | nil => simp at hlen
  | cons x xs ih =>
    cases i with
    | zero => simp [findIdxL, show p x = true from hp]
    | succ k =>
      have hx : p x = false := hj 0 (by omega)
      simp only [findIdxL, hx, Bool.false_eq_true, if_false]
      rw [ih k (by simpa using hlen) hp (fun j hjk => hj (j + 1) (by omega))]
      rfl

theorem findIdxL_none {p : α → Bool} {ls : List α}
    (h : findIdxL p ls = none) : ∀ x ∈ ls, p x = false := by
  induction ls with
  | nil => simp
  | cons x xs ih =>
    simp only [findIdxL] at h
    by_cases hp : p x
    · rw [if_pos hp] at h; simp at h
    · rw [if_neg hp] at h
      intro y hy
      rcases List.mem_cons.mp hy with hy | hy
      · subst hy; simpa using hp
      · cases hfi : findIdxL p xs with
        | none => exact ih hfi y hy
        | some i2 => rw [hfi] at h; simp at h

theorem findIdxL_none_of {p : α → Bool} {ls : List α}
    (h : ∀ x ∈ ls, p x = false) : findIdxL p ls = none := by
  induction ls with
  | nil => rfl
  | cons x xs ih =>
    simp only [findIdxL, h x (List.mem_cons_self _ _), Bool.false_eq_true, if_false]
    rw [ih (fun y hy => h y (List.mem_cons_of_mem x hy))]
    rfl

/-! ### C4: edge construction -/

theorem foldl_push_eq_append_map {f : α → β} (links : List α) (acc : List β) :
    links.foldl (fun acc2 p => acc2 ++ [f p]) acc = acc ++ links.map f := by
  induction links generalizing acc with
  | nil => simp
  | cons x xs ih => simp [ih, List.append_assoc]

theorem createEdges_eq_flatMap (tasks : List Task) (ld : LayoutDir) (dv : Bool) :
    createEdgesFromTasks tasks ld dv =
      tasks.flatMap (fun t => t.incomingLinks.map (mkTaskEdge ld dv t)) := by
  suffices h : ∀ acc : List TaskEdge,
      tasks.foldl (fun acc t =>
        t.incomingLinks.foldl (fun acc2 p => acc2 ++ [mkTaskEdge ld dv t p]) acc) acc =
      acc ++ tasks.flatMap (fun t => t.incomingLinks.map (mkTaskEdge ld dv t)) by
    simpa [createEdgesFromTasks] using h []
  induction tasks with
  | nil => intro acc; simp
  | cons t ts ih =>
    intro acc
    simp only [List.foldl_cons, List.flatMap_cons]
    rw [foldl_push_eq_append_map, ih, List.append_assoc]

/-- C4: for every task list, building edges emits exactly one edge per entry
of each task's `incomingLinks`, with source the entry, target the task id,
and both the edge id and the hash payload equal to `source-target`; dangling
entries are emitted like any other, and construction is total, so it never
fails. -/
theorem C4_edges_one_per_incoming_link (tasks : List Task) (ld : LayoutDir)
    (dv : Bool) :
    createEdgesFromTasks tasks ld dv =
      tasks.flatMap (fun t => t.incomingLinks.map (fun src =>
        ({ id := src ++ '-' :: t.id
           source := src
           target := t.id
           kind := toChars "hash"
           data := { hash := src ++ '-' :: t.id
                     layoutDirection := ld
                     debugVisualization := dv } } : TaskEdge))) ∧
    (createEdgesFromTasks tasks ld dv).length =
      (tasks.map (fun t => t.incomingLinks.length)).sum ∧
    ∀ t ∈ tasks, ∀ src ∈ t.incomingLinks,
      ({ id := src ++ '-' :: t.id
         source := src
         target := t.id
         kind := toChars "hash"
         data := { hash := src ++ '-' :: t.id
                   layoutDirection := ld
                   debugVisualization := dv } } : TaskEdge) ∈
        createEdgesFromTasks tasks ld dv := by
  have hbind := createEdges_eq_flatMap tasks ld dv
  refine ⟨hbind, ?_, ?_⟩
  · rw [hbind]
    clear hbind
    induction tasks with
    | nil => simp
    | cons t ts ih => simp [List.flatMap_cons, ih]
  · intro t ht src hsrc
    rw [hbind]
    exact List.mem_flatMap.mpr ⟨t, ht, List.mem_map.mpr ⟨src, hsrc, rfl⟩⟩

def taskB : Task :=
  { id := toChars "B"
    kind := TaskKind.inline
    text := toChars "t"
    summary := []
    tags := []
    status := TaskStatus.todo
    priority := []
    link := toChars "f.md"
    incomingLinks := [toChars "A"]
    starred := false
    line := none }

theorem C4_edges_one_per_incoming_link_witness :
    mkTaskEdge LayoutDir.horizontal false taskB (toChars "A") ∈
      createEdgesFromTasks [taskB] LayoutDir.horizontal false := by
  exact (C4_edges_one_per_incoming_link [taskB] LayoutDir.horizontal false).2.2
    taskB (List.mem_singleton.mpr rfl) (toChars "A") (List.mem_singleton.mpr rfl)

/-! ### C9: layout recentering -/

/-- C9 counterexample: with the layout oracle placing the single node at
(100, 100), the adapter returns (10, 70), subtracting the fixed offsets 90
and 30 rather than half the configured node width 250 and height 120. -/
theorem C9_layout_offset_counterexample :
    (getLayoutedElements (fun _ => some (100, 100)) [defaultNode]).map
        (fun n => n.position) = [{ x := 10, y := 70 }] ∧
    ¬ ((10 : Int) = 100 - NODEWIDTH / 2) ∧
    ¬ ((70 : Int) = 100 - NODEHEIGHT / 2) := by
  refine ⟨rfl, by decide, by decide⟩

/-- C9 (amended): nodes absent from the layout output fall back to (0, 0),
and returned positions are shifted by the fixed offsets 90 horizontally and
30 vertically, which are not half of the configured node width 250 and
height 120. -/
theorem C9_layout_positions (f : Str → Option (Int × Int))
    (nodes : List RFNode) (i : Nat) (h : i < nodes.length) :
    (getLayoutedElements f nodes).length = nodes.length ∧
    (nthD (getLayoutedElements f nodes) i defaultNode).id =
      (nthD nodes i defaultNode).id ∧
    (f (nthD nodes i defaultNode).id = none →
      (nthD (getLayoutedElements f nodes) i defaultNode).position = { x := 0, y := 0 }) ∧
    (∀ x y, f (nthD nodes i defaultNode).id = some (x, y) →
      (nthD (getLayoutedElements f nodes) i defaultNode).position =
        { x := x - 90, y := y - 30 }) := by
  unfold getLayoutedElements
  rw [nthD_map defaultNode h]
  refine ⟨by simp, ?_, ?_, ?_⟩
  · cases hf : f (nthD nodes i defaultNode).id with
    | none => rfl
    | some xy => cases xy with | mk x y => rfl
  · intro hf
    rw [hf]
  · intro x y hf
    rw [hf]

theorem C9_layout_positions_witness :
    (getLayoutedElements (fun _ => none) [defaultNode]).length = 1 ∧
    (nthD (getLayoutedElements (fun _ => none) [defaultNode]) 0 defaultNode).position =
      { x := 0, y := 0 } := by
  have h := C9_layout_positions (fun _ => none) [defaultNode] 0 (by decide)
  exact ⟨h.1, h.2.2.1 rfl⟩

/-! ### C10: canvas id uniqueness -/

theorem updateNodesPure_id_map (scanned : List Task) (nodes : List RFNode) :
    (updateNodesPure scanned nodes).map (fun n => n.id) = nodes.map (fun n => n.id) := by
  unfold updateNodesPure
  rw [List.map_map]
  apply List.map_congr_left
  intro n _
  simp only [Function.comp]
  cases n.data.task with
  | none => rfl
  | some t0 =>
    cases scanned.find? (fun t => decide (t.id = n.id)) with
    | none => rfl
    | some t => rfl

/-- C10: canvas node ids stay unique: adding a task whose resolved id is
already on the canvas leaves the node set unchanged; adding, refreshing and
deleting all preserve the no-duplicate invariant on node ids. -/
theorem C10_canvas_id_uniqueness (tasks scanned : List Task)
    (nodes : List RFNode) (taskId : Str) (pos : Position)
    (taskData : Option Task) (s : ViewSettings) (nodeId : Str) :
    (∀ task, ((tasks.find? (fun t => decide (t.id = taskId))).orElse
        (fun _ => taskData)) = some task →
      (∃ n ∈ nodes, n.id = task.id) →
      addTaskToCanvasPure tasks nodes taskId pos taskData s = nodes) ∧
    ((nodes.map (fun n => n.id)).Nodup →
      ((addTaskToCanvasPure tasks nodes taskId pos taskData s).map
        (fun n => n.id)).Nodup) ∧
    ((updateNodesPure scanned nodes).map (fun n => n.id) =
      nodes.map (fun n => n.id)) ∧
    ((nodes.map (fun n => n.id)).Nodup →
      ((deleteNodePure nodeId nodes).map (fun n => n.id)).Nodup) := by
  refine ⟨?_, ?_, updateNodesPure_id_map scanned nodes, ?_⟩
  · intro task hres hdup
    unfold addTaskToCanvasPure
    rw [hres]
    dsimp only
    have hany : nodes.any (fun n => decide (n.id = task.id)) = true := by
      obtain ⟨n, hn, hid⟩ := hdup
      exact List.any_eq_true.mpr ⟨n, hn, by simp [hid]⟩
    rw [if_pos hany]
  · intro hnd
    unfold addTaskToCanvasPure
    cases hres : (tasks.find? (fun t => decide (t.id = taskId))).orElse
        (fun _ => taskData) with
    | none => exact hnd
    | some task =>
      dsimp only
      by_cases hany : nodes.any (fun n => decide (n.id = task.id)) = true
      · rw [if_pos hany]; exact hnd
      · rw [if_neg hany]
        rw [List.map_append]
        rw [List.nodup_append]
        refine ⟨hnd, by simp, ?_⟩
        intro a ha hb
        simp only [List.map_cons, List.map_nil, List.mem_singleton] at hb
        subst hb
        obtain ⟨n, hn, hid⟩ := List.mem_map.mp ha
        exact hany (List.any_eq_true.mpr ⟨n, hn, by simp [hid]⟩)
  · intro hnd
    have hsub : List.Sublist ((deleteNodePure nodeId nodes).map (fun n => n.id))
        (nodes.map (fun n => n.id)) :=
      List.Sublist.map _ (List.filter_sublist nodes)
    exact hnd.sublist hsub

theorem C10_canvas_id_uniqueness_witness :
    addTaskToCanvasPure [sampleTask]
      [{ id := toChars "A"
         position := { x := 0, y := 0 }
         data := mkNodeData (some sampleTask) sampleSettings
         kind := toChars "task"
         sourcePosition := HandlePos.right
         targetPosition := HandlePos.left
         draggable := true }] (toChars "A") { x := 5, y := 5 } none sampleSettings =
      [{ id := toChars "A"
         position := { x := 0, y := 0 }
         data := mkNodeData (some sampleTask) sampleSettings
         kind := toChars "task"
         sourcePosition := HandlePos.right
         targetPosition := HandlePos.left
         draggable := true }] := by
  exact (C10_canvas_id_uniqueness [sampleTask] []
    [{ id := toChars "A"
       position := { x := 0, y := 0 }
       data := mkNodeData (some sampleTask) sampleSettings
       kind := toChars "task"
       sourcePosition := HandlePos.right
       targetPosition := HandlePos.left
       draggable := true }] (toChars "A") { x := 5, y := 5 } none sampleSettings
    []).1 sampleTask (by decide)
    ⟨_, List.mem_singleton.mpr rfl, by decide⟩

/-! ### C5: refresh reconciliation -/

/-- C5: during a refresh, nodes are matched to freshly scanned tasks by id
only; a match replaces only the task payload, preserving position and every
other field; no match (or a node without a payload) leaves the node
unchanged; nothing is ever deleted. -/
theorem C5_refresh_updates_payload_preserving_position
    (scanned : List Task) (nodes : List RFNode) (i : Nat)
    (h : i < nodes.length) :
    (updateNodesPure scanned nodes).length = nodes.length ∧
    ((nthD (updateNodesPure scanned nodes) i defaultNode).id =
      (nthD nodes i defaultNode).id ∧
    (nthD (updateNodesPure scanned nodes) i defaultNode).position =
      (nthD nodes i defaultNode).position ∧
    ((nthD nodes i defaultNode).data.task = none →
      nthD (updateNodesPure scanned nodes) i defaultNode = nthD nodes i defaultNode) ∧
    (scanned.find? (fun t => decide (t.id = (nthD nodes i defaultNode).id)) = none →
      nthD (updateNodesPure scanned nodes) i defaultNode = nthD nodes i defaultNode) ∧
    (∀ t0 t, (nthD nodes i defaultNode).data.task = some t0 →
      scanned.find? (fun t2 => decide (t2.id = (nthD nodes i defaultNode).id)) = some t →
      nthD (updateNodesPure scanned nodes) i defaultNode =
        { nthD nodes i defaultNode with
            data := { (nthD nodes i defaultNode).data with task := some t } })) := by
  constructor
  · unfold updateNodesPure
    simp
  · unfold updateNodesPure
    rw [nthD_map defaultNode h]
    refine ⟨?_, ?_, ?_, ?_, ?_⟩
    · cases (nthD nodes i defaultNode).data.task with
      | none => rfl
      | some t0 =>
        cases scanned.find? (fun t => decide (t.id = (nthD nodes i defaultNode).id)) with
        | none => rfl
        | some t => rfl
    · cases (nthD nodes i defaultNode).data.task with
      | none => rfl
      | some t0 =>
        cases scanned.find? (fun t => decide (t.id = (nthD nodes i defaultNode).id)) with
        | none => rfl
        | some t => rfl
    · intro ht
      rw [ht]
    · intro hf
      cases ht : (nthD nodes i defaultNode).data.task with
      | none => rfl
      | some t0 => rw [hf]
    · intro t0 t ht hf
      rw [ht, hf]

theorem C5_refresh_witness :
    (updateNodesPure [sampleTask]
      [{ id := toChars "A"
         position := { x := 40, y := 70 }
         data := mkNodeData (some sampleTask) sampleSettings
         kind := toChars "task"
         sourcePosition := HandlePos.right
         targetPosition := HandlePos.left
         draggable := true }]).length = 1 ∧
    (nthD (updateNodesPure [sampleTask]
      [{ id := toChars "A"
         position := { x := 40, y := 70 }
         data := mkNodeData (some sampleTask) sampleSettings
         kind := toChars "task"
         sourcePosition := HandlePos.right
         targetPosition := HandlePos.left
         draggable := true }]) 0 defaultNode).position = { x := 40, y := 70 } := by
  have h := C5_refresh_updates_payload_preserving_position [sampleTask]
    [{ id := toChars "A"
       position := { x := 40, y := 70 }
       data := mkNodeData (some sampleTask) sampleSettings
       kind := toChars "task"
       sourcePosition := HandlePos.right
       targetPosition := HandlePos.left
       draggable := true }] 0 (by decide)
  exact ⟨h.1, by rw [h.2.2.1]; rfl⟩

/-! ### C6: snapshot restoration -/

def savedN1 : SavedNode :=
  { id := toChars "N1"
    position := { x := 40, y := 70 }
    taskId := toChars "N1"
    taskData := none }

/-- C6 counterexample: a snapshot node without retained task data is not
restored at all, so not every node present in the saved snapshot is
restored with its saved position. -/
theorem C6_restore_counterexample :
    ¬ ∀ sn ∈ [savedN1], ∃ n ∈ restoreNodes [savedN1] sampleSettings,
        n.id = sn.id ∧ n.position = sn.position := by
  intro h
  obtain ⟨n, hn, _⟩ := h savedN1 (List.mem_singleton.mpr rfl)
  have : restoreNodes [savedN1] sampleSettings = [] := rfl
  rw [this] at hn
  exact List.not_mem_nil n hn

/-- C6 (amended): every saved node that carries retained task data is
restored with its saved position and task payload, regardless of any fresh
scan (restoration does not consult freshly parsed tasks at all); saved
nodes without task data are dropped. -/
theorem C6_restore_saved_nodes (saved : List SavedNode) (s : ViewSettings)
    (sn : SavedNode) (td : Task) (hmem : sn ∈ saved)
    (htd : sn.taskData = some td) :
    (restoreNodes saved s).length = (saved.filter (fun n => n.taskData.isSome)).length ∧
    ∃ n ∈ restoreNodes saved s,
      n.id = sn.id ∧ n.position = sn.position ∧ n.data.task = some td := by
  constructor
  · unfold restoreNodes
    simp
  · have hf : sn ∈ saved.filter (fun n => n.taskData.isSome) :=
      List.mem_filter.mpr ⟨hmem, by simp [htd]⟩
    refine ⟨_, List.mem_map.mpr ⟨sn, hf, rfl⟩, rfl, rfl, ?_⟩
    simp [mkNodeData, htd]

theorem C6_restore_saved_nodes_witness :
    ∃ n ∈ restoreNodes [{ id := toChars "N1"
                          position := { x := 40, y := 70 }
                          taskId := toChars "N1"
                          taskData := some sampleTask }] sampleSettings,
      n.id = toChars "N1" ∧ n.position = { x := 40, y := 70 } ∧
      n.data.task = some sampleTask := by
  have h := C6_restore_saved_nodes
    [{ id := toChars "N1"
       position := { x := 40, y := 70 }
       taskId := toChars "N1"
       taskData := some sampleTask }] sampleSettings
    { id := toChars "N1"
      position := { x := 40, y := 70 }
      taskId := toChars "N1"
      taskData := some sampleTask } sampleTask
    (List.mem_singleton.mpr rfl) rfl
  exact h.2

/-! ### C2: csv dialect conversion -/

def countChar (c : Char) (l : Str) : Nat := (l.filter (fun x => x = c)).length

/-- C2 counterexample: on a line with the two individual markers for aaa111
and bbb222, adding ccc333 under the csv linking style leaves two stop
markers in the line instead of one merged marker, because a single
individual marker already matches the csv pattern, so the
individual-to-csv conversion branch is never reached. -/
theorem C2_csv_conversion_counterexample :
    countChar '⛔'
      (addSignInlineContent LinkStyle.csv SignType.stop (toChars "ccc333")
        (toChars "t") (toChars "- [ ] t ⛔ aaa111 ⛔ bbb222")) = 2 ∧
    isInfixB (toChars "⛔ aaa111,bbb222,ccc333")
      (addSignInlineContent LinkStyle.csv SignType.stop (toChars "ccc333")
        (toChars "t") (toChars "- [ ] t ⛔ aaa111 ⛔ bbb222")) = false := by
  constructor
  · rfl
  · rfl

/-- C2 (amended): on that line the csv policy appends ccc333 to the first
marker, which matches the csv pattern as a one-element list, producing
`⛔ aaa111,ccc333` and leaving the individual marker `⛔ bbb222` in place
untouched. -/
theorem C2_csv_appends_to_first_marker :
    addSignInlineContent LinkStyle.csv SignType.stop (toChars "ccc333")
      (toChars "t") (toChars "- [ ] t ⛔ aaa111 ⛔ bbb222") =
    toChars "- [ ] t ⛔ aaa111,ccc333 ⛔ bbb222" := by
  rfl

/-! ### C7: status round trip -/

theorem dropWhile_append_of_all {p : α → Bool} {ws l : List α}
    (h : ∀ c ∈ ws, p c = true) :
    (ws ++ l).dropWhile p = l.dropWhile p := by
  induction ws with
  | nil => rfl
  | cons a ws2 ih =>
    have ha : p a = true := h a (List.mem_cons_self _ _)
    simp only [List.cons_append, List.dropWhile_cons, ha, if_pos]
    exact ih (fun c hc => h c (List.mem_cons_of_mem a hc))

theorem replaceStatusFirst_at_marker (sym : Str) (pre : Str) (c : Char)
    (rest : Str) (hpre : '[' ∉ pre) (hc : isStatusChar c = true) :
    replaceStatusFirst sym (pre ++ '[' :: c :: ']' :: rest) =
      pre ++ sym ++ rest := by
  induction pre with
  | nil =>
    show replaceStatusFirst sym ('[' :: c :: ']' :: rest) = sym ++ rest
    rw [replaceStatusFirst.eq_def]
    split
    · rename_i heq
      injection heq with h1 h2
      injection h2 with h2 h3
      injection h3 with h3 h4
      subst h2
      subst h4
      rw [if_pos hc]
    · rename_i hne heq
      injection heq with h1 h2
      exact (hne c rest h1.symm h2.symm).elim
    · rename_i heq
      exact absurd heq (by simp)
  | cons a pre2 ih =>
    have ha : a ≠ '[' := fun hf => hpre (hf ▸ List.mem_cons_self a pre2)
    have hpre2 : '[' ∉ pre2 := fun hf => hpre (List.mem_cons_of_mem a hf)
    show replaceStatusFirst sym (a :: (pre2 ++ '[' :: c :: ']' :: rest)) = _
    rw [replaceStatusFirst.eq_def]
    split
    · rename_i heq
      injection heq with h1 h2
      exact absurd h1 ha
    · rename_i hne heq
      injection heq with h1 h2
      subst h1
      rw [← h2, ih hpre2]
      simp
    · rename_i heq
      exact absurd heq (by simp)

theorem statusSymbols_shape (s : TaskStatus) :
    ∃ ch, statusSymbols s = ['[', ch, ']'] ∧ parseStatusChar ch = some s ∧
      ¬ ch = '\n' := by
  cases s with
  | todo => exact ⟨' ', rfl, rfl, by decide⟩
  | in_progress => exact ⟨'/', rfl, rfl, by decide⟩
  | done => exact ⟨'x', rfl, rfl, by decide⟩
  | canceled => exact ⟨'-', rfl, rfl, by decide⟩

/-- C7: for every status, the inline mutation rewrites exactly the
single-character code inside the checklist marker according to the mapping
space to todo, slash to in_progress, dash to canceled, x to done, and
re-parsing the mutated line yields that status. -/
theorem C7_status_round_trip (s : TaskStatus) (ws rest : Str) (c : Char)
    (hws : ∀ x ∈ ws, isJsWs x = true) (hc : isStatusChar c = true) :
    replaceStatusFirst (statusSymbols s)
        (ws ++ '-' :: ' ' :: '[' :: c :: ']' :: rest) =
      ws ++ '-' :: ' ' :: statusSymbols s ++ rest ∧
    parseInlineStatus (replaceStatusFirst (statusSymbols s)
        (ws ++ '-' :: ' ' :: '[' :: c :: ']' :: rest)) = some s := by
  have hpre : '[' ∉ ws ++ ['-', ' '] := by
    intro hmem
    rcases List.mem_append.mp hmem with hmem | hmem
    · have := hws _ hmem
      simp [isJsWs] at this
    · simp at hmem
  have hrepl : replaceStatusFirst (statusSymbols s)
      (ws ++ '-' :: ' ' :: '[' :: c :: ']' :: rest) =
        ws ++ '-' :: ' ' :: statusSymbols s ++ rest := by
    have h0 := replaceStatusFirst_at_marker (statusSymbols s) (ws ++ ['-', ' '])
      c rest hpre hc
    rw [show (ws ++ ['-', ' ']) ++ '[' :: c :: ']' :: rest =
      ws ++ '-' :: ' ' :: '[' :: c :: ']' :: rest by simp] at h0
    rw [h0]
    simp
  refine ⟨hrepl, ?_⟩
  obtain ⟨ch, hsym, hmap, hch⟩ := statusSymbols_shape s
  rw [hrepl, hsym]
  rw [show ws ++ '-' :: ' ' :: ['[', ch, ']'] ++ rest =
    ws ++ ('-' :: ' ' :: '[' :: ch :: ']' :: rest) by simp]
  unfold parseInlineStatus checklistStatusChar
  rw [dropWhile_append_of_all hws]
  show (if ch = '\n' then none else some ch).bind parseStatusChar = some s
  rw [if_neg hch]
  exact hmap

theorem C7_status_round_trip_witness :
    replaceStatusFirst (statusSymbols TaskStatus.done)
        (toChars "- [ ] foo") = toChars "- [x] foo" ∧
    parseInlineStatus (replaceStatusFirst (statusSymbols TaskStatus.done)
        (toChars "- [ ] foo")) = some TaskStatus.done := by
  have h := C7_status_round_trip TaskStatus.done [] (toChars " foo") ' '
    (by intro x hx; simp at hx) (by decide)
  exact ⟨h.1, h.2⟩

/-! ### C3: mutations are silent no-ops when the target is missing -/

/-- C3: every document mutation is a total function (it cannot throw), and
whenever the target line cannot be located, or the frontmatter attribute
block is missing or unterminated, the document text is returned unchanged. -/
theorem C3_mutations_noop_when_target_missing
    (content taskId taskText tag hash fromText fromId : Str)
    (s : TaskStatus) (ty : SignType) (style : LinkStyle) :
    (findTaskLineByIdOrText (splitLines content) taskId taskText = none →
      updateStatusInlineContent taskId taskText s content = content ∧
      addStarInlineContent taskId taskText content = content ∧
      removeStarInlineContent taskId taskText content = content) ∧
    (findTaskLineByIdOrText (splitLines content) taskId taskText = none →
      fallbackFind taskText (splitLines content) = none →
      addTagInlineContent taskId taskText tag content = content ∧
      removeTagInlineContent taskId taskText tag content = content) ∧
    (findIdxL (fun l => isInfixB taskText l) (splitLines content) = none →
      addSignInlineContent style ty hash taskText content = content ∧
      removeSignInlineContent ty hash taskText content = content) ∧
    (fmBounds (splitLines content) = none →
      updateStatusNoteContent s content = content ∧
      addTagNoteContent tag content = content ∧
      removeTagNoteContent tag content = content ∧
      addStarNoteContent content = content ∧
      removeStarNoteContent content = content ∧
      addDependencyNoteContent fromText content = content ∧
      removeDependencyNoteContent fromId content = content) := by
  refine ⟨?_, ?_, ?_, ?_⟩
  · intro h
    refine ⟨?_, ?_, ?_⟩
    · simp [updateStatusInlineContent, h]
    · simp [addStarInlineContent, h]
    · simp [removeStarInlineContent, h]
  · intro h h2
    constructor
    · simp [addTagInlineContent, h, h2]
    · simp [removeTagInlineContent, h, h2]
  · intro h
    constructor
    · simp [addSignInlineContent, h]
    · simp [removeSignInlineContent, h]
  · intro h
    refine ⟨?_, ?_, ?_, ?_, ?_, ?_, ?_⟩
    · simp [updateStatusNoteContent, h]
    · simp [addTagNoteContent, h]
    · simp [removeTagNoteContent, h]
    · simp [addStarNoteContent, h]
    · simp [removeStarNoteContent, h]
    · simp [addDependencyNoteContent, h]
    · simp [removeDependencyNoteContent, h]

theorem C3_mutations_noop_witness :
    updateStatusInlineContent (toChars "a") (toChars "q") TaskStatus.done
        (toChars "x") = toChars "x" ∧
    addTagInlineContent (toChars "a") (toChars "q") (toChars "g")
        (toChars "x") = toChars "x" ∧
    addSignInlineContent LinkStyle.csv SignType.stop (toChars "hhh111")
        (toChars "q") (toChars "x") = toChars "x" ∧
    addTagNoteContent (toChars "g") (toChars "x") = toChars "x" := by
  have h := C3_mutations_noop_when_target_missing (toChars "x") (toChars "a")
    (toChars "q") (toChars "g") (toChars "hhh111") (toChars "F") (toChars "F")
    TaskStatus.done SignType.stop LinkStyle.csv
  exact ⟨(h.1 (by decide)).1, (h.2.1 (by decide) (by decide)).1,
    (h.2.2.1 (by decide)).1, (h.2.2.2 (by decide)).2.1⟩

/-! ### Infrastructure for the idempotence proofs -/

theorem nthD_take {ls : List α} {n i : Nat} {d : α} (h : i < n) :
    nthD (ls.take n) i d = nthD ls i d := by
  induction ls generalizing n i with
  | nil => simp
  | cons a as2 ih =>
    cases n with
    | zero => simp at h
    | succ m =>
      cases i with
      | zero => rfl
      | succ k => exact ih (by omega)

theorem nthD_nil {i : Nat} {d : α} : nthD ([] : List α) i d = d := by
  cases i with
  | zero => rfl
  | succ k => rfl

theorem nthD_drop {ls : List α} {s i : Nat} {d : α} :
    nthD (ls.drop s) i d = nthD ls (s + i) d := by
  induction ls generalizing s i with
  | nil => rw [List.drop_nil, nthD_nil, nthD_nil]
  | cons a as2 ih =>
    cases s with
    | zero => rw [List.drop_zero, Nat.zero_add]
    | succ m =>
      show nthD (as2.drop m) i d = nthD (a :: as2) (m + 1 + i) d
      rw [ih, show m + 1 + i = (m + i) + 1 by omega]
      rfl

theorem length_spliceIn {i : Nat} {xs ls : List α} (h : i ≤ ls.length) :
    (spliceIn i xs ls).length = ls.length + xs.length := by
  unfold spliceIn
  simp [List.length_take, List.length_drop]
  omega

theorem nthD_spliceIn_lt {i j : Nat} {xs ls : List α} {d : α}
    (hij : j < i) (hi : i ≤ ls.length) :
    nthD (spliceIn i xs ls) j d = nthD ls j d := by
  unfold spliceIn
  rw [List.append_assoc]
  rw [nthD_append_left (by rw [List.length_take]; omega)]
  exact nthD_take hij

theorem nthD_spliceIn_mid {i k : Nat} {xs ls : List α} {d : α}
    (hi : i ≤ ls.length) (hk : k < xs.length) :
    nthD (spliceIn i xs ls) (i + k) d = nthD xs k d := by
  unfold spliceIn
  rw [List.append_assoc]
  rw [nthD_append_right (by rw [List.length_take]; omega)]
  rw [show i + k - (ls.take i).length = k by rw [List.length_take]; omega]
  exact nthD_append_left hk

theorem nthD_spliceIn_ge {i j : Nat} {xs ls : List α} {d : α}
    (hi : i ≤ ls.length) (hj : i + xs.length ≤ j) :
    nthD (spliceIn i xs ls) j d = nthD ls (j - xs.length) d := by
  unfold spliceIn
  rw [List.append_assoc]
  rw [nthD_append_right (by rw [List.length_take]; omega)]
  rw [nthD_append_right (by rw [List.length_take]; omega)]
  rw [List.length_take]
  rw [nthD_drop]
  congr 1
  omega

theorem nthD_spliceIn_at1 {j : Nat} {x : α} {ls : List α} {d : α}
    (h : j ≤ ls.length) : nthD (spliceIn j [x] ls) j d = x := by
  have h0 := @nthD_spliceIn_mid α j 0 [x] ls d h Nat.zero_lt_one
  simpa using h0

theorem nthD_spliceIn_at2a {j : Nat} {x y : α} {ls : List α} {d : α}
    (h : j ≤ ls.length) : nthD (spliceIn j [x, y] ls) j d = x := by
  have h0 := @nthD_spliceIn_mid α j 0 [x, y] ls d h (by simp)
  simpa using h0

theorem nthD_spliceIn_at2b {j : Nat} {x y : α} {ls : List α} {d : α}
    (h : j ≤ ls.length) : nthD (spliceIn j [x, y] ls) (j + 1) d = y := by
  have h0 := @nthD_spliceIn_mid α j 1 [x, y] ls d h (by simp)
  simpa using h0

theorem mem_spliceIn {l : α} {i : Nat} {xs ls : List α}
    (h : l ∈ spliceIn i xs ls) : l ∈ ls ∨ l ∈ xs := by
  unfold spliceIn at h
  rcases List.mem_append.mp h with h | h
  · rcases List.mem_append.mp h with h | h
    · exact Or.inl ((List.take_sublist i ls).subset h)
    · exact Or.inr h
  · exact Or.inl ((List.drop_sublist i ls).subset h)

theorem spliceIn_ne_nil {i : Nat} {xs : List α} {ls : List α}
    (h : ls ≠ []) : spliceIn i xs ls ≠ [] := by
  unfold spliceIn
  intro hf
  rcases List.append_eq_nil.mp hf with ⟨h1, h2⟩
  rcases List.append_eq_nil.mp h1 with ⟨h3, h4⟩
  cases ls with
  | nil => exact h rfl
  | cons a as2 =>
    cases i with
    | zero => simp at h2
    | succ m => simp at h3

theorem mem_of_getLast? {l : List α} {a : α} (h : l.getLast? = some a) :
    a ∈ l := by
  induction l with
  | nil => simp at h
  | cons x xs ih =>
    cases xs with
    | nil =>
      simp only [List.getLast?_singleton, Option.some.injEq] at h
      simp [h]
    | cons y ys =>
      rw [List.getLast?_cons_cons] at h
      exact List.mem_cons_of_mem x (ih h)

/-- Clean round trip: carriage-return-free, newline-free lines survive a
join and re-split untouched. -/
theorem splitLines_joinLines_clean (ls : List Str) (hne : ls ≠ [])
    (h : ∀ l ∈ ls, '\n' ∉ l ∧ '\r' ∉ l) :
    splitLines (joinLines ls) = ls := by
  rw [splitLines_joinLines ls hne (fun l hl => (h l hl).1)]
  exact normLines_eq_self ls (fun l hl hlast => (h l hl).2 (mem_of_getLast? hlast))

/-- Every character of a split line is a character of the source text. -/
theorem splitLines_chars (content : Str) :
    ∀ l ∈ splitLines content, ∀ c ∈ l, c ∈ content := by
  suffices h : ∀ (n : Nat) (content acc : Str), content.length ≤ n →
      ∀ l ∈ splitLinesAux content acc, ∀ c ∈ l, c ∈ content ∨ c ∈ acc by
    intro l hl c hc
    rcases h content.length content [] (Nat.le_refl _) l hl c hc with hx | hx
    · exact hx
    · simp at hx
  intro n
  induction n with
  | zero =>
    intro content acc hlen l hl c hc
    have : content = [] := List.length_eq_zero.mp (Nat.le_zero.mp hlen)
    subst this
    simp only [splitLinesAux, List.mem_singleton] at hl
    subst hl
    exact Or.inr (by simpa using hc)
  | succ n ih =>
    intro content acc hlen l hl c hc
    cases content with
    | nil =>
      simp only [splitLinesAux, List.mem_singleton] at hl
      subst hl
      exact Or.inr (by simpa using hc)
    | cons c0 rest =>
      by_cases hc0 : c0 = '\n'
      · subst hc0
        rw [show splitLinesAux ('\n' :: rest) acc = acc.reverse :: splitLinesAux rest []
          from rfl] at hl
        rcases List.mem_cons.mp hl with hl | hl
        · subst hl; exact Or.inr (by simpa using hc)
        · rcases ih rest [] (by simpa using hlen) l hl c hc with hx | hx
          · exact Or.inl (List.mem_cons_of_mem _ hx)
          · simp at hx
      · by_cases hb : c0 = '\r' ∧ rest.head? = some '\n'
        · obtain ⟨hr, hh⟩ := hb
          subst hr
          cases rest with
          | nil => simp at hh
          | cons d r2 =>
            have hd : d = '\n' := by simpa using hh
            subst hd
            rw [show splitLinesAux ('\r' :: '\n' :: r2) acc =
              acc.reverse :: splitLinesAux r2 [] from rfl] at hl
            rcases List.mem_cons.mp hl with hl | hl
            · subst hl; exact Or.inr (by simpa using hc)
            · rcases ih r2 [] (by simp at hlen; omega) l hl c hc with hx | hx
              · exact Or.inl (by simp [hx])
              · simp at hx
        · have hside : c0 ≠ '\r' ∨ rest.head? ≠ some '\n' := by
            by_cases hr : c0 = '\r'
            · exact Or.inr (fun hh => hb ⟨hr, hh⟩)
            · exact Or.inl hr
          rw [splitLinesAux_content hc0 hside] at hl
          rcases ih rest (c0 :: acc) (by simpa using hlen) l hl c hc with hx | hx
          · exact Or.inl (List.mem_cons_of_mem _ hx)
          · rcases List.mem_cons.mp hx with hx | hx
            · exact Or.inl (by simp [hx])
            · exact Or.inr hx

/-! ### Characterisation of `findIdxFromTo` and `fmBounds` -/

theorem findIdxFromTo_some {p : Str → Bool} {lines : List Str}
    {start stop i : Nat} (h : findIdxFromTo p lines start stop = some i) :
    start ≤ i ∧ i < stop ∧ i < lines.length ∧ p (nthD lines i []) = true ∧
      ∀ k, start ≤ k → k < i → p (nthD lines k []) = false := by
  unfold findIdxFromTo at h
  cases hfi : findIdxL p ((lines.drop start).take (stop - start)) with
  | none => rw [hfi] at h; simp at h
  | some m =>
    rw [hfi] at h
    have h2 : some (m + start) = some i := h
    injection h2 with h2
    subst h2
    obtain ⟨h1, h3, h4⟩ := findIdxL_some [] hfi
    rw [List.length_take, List.length_drop] at h1
    have hm1 : m < stop - start := by omega
    have hm2 : m < lines.length - start := by omega
    rw [nthD_take hm1, nthD_drop] at h3
    refine ⟨by omega, by omega, by omega, by rw [show start + m = m + start by omega] at h3; exact h3, ?_⟩
    intro k hk1 hk2
    have := h4 (k - start) (by omega)
    rw [nthD_take (by omega), nthD_drop] at this
    rw [show start + (k - start) = k by omega] at this
    exact this

theorem findIdxFromTo_of {p : Str → Bool} {lines : List Str}
    {start stop i : Nat} (h1 : start ≤ i) (h2 : i < stop)
    (h3 : i < lines.length) (h4 : p (nthD lines i []) = true)
    (h5 : ∀ k, start ≤ k → k < i → p (nthD lines k []) = false) :
    findIdxFromTo p lines start stop = some i := by
  unfold findIdxFromTo
  rw [findIdxL_of [] (i - start) (by rw [List.length_take, List.length_drop]; omega)
    (by rw [nthD_take (by omega), nthD_drop, show start + (i - start) = i by omega]; exact h4)
    (fun j hj => by
      rw [nthD_take (by omega), nthD_drop]
      exact h5 (start + j) (by omega) (by omega))]
  show some ((i - start) + start) = some i
  rw [show (i - start) + start = i by omega]

theorem nthD_mem {ls : List α} {i : Nat} {d : α} (h : i < ls.length) :
    nthD ls i d ∈ ls := by
  induction ls generalizing i with
  | nil => simp at h
  | cons a as2 ih =>
    cases i with
    | zero => exact List.mem_cons_self _ _
    | succ k => exact List.mem_cons_of_mem a (ih (by simpa using h))

theorem findIdxFromTo_none {p : Str → Bool} {lines : List Str}
    {start stop : Nat} (h : findIdxFromTo p lines start stop = none) :
    ∀ k, start ≤ k → k < stop → k < lines.length → p (nthD lines k []) = false := by
  intro k hk1 hk2 hk3
  unfold findIdxFromTo at h
  cases hfi : findIdxL p ((lines.drop start).take (stop - start)) with
  | some m => rw [hfi] at h; simp at h
  | none =>
    have hall := findIdxL_none hfi
    have hmem : nthD lines k [] ∈ (lines.drop start).take (stop - start) := by
      have hget : nthD ((lines.drop start).take (stop - start)) (k - start) [] =
          nthD lines k [] := by
        rw [nthD_take (by omega), nthD_drop, show start + (k - start) = k by omega]
      rw [← hget]
      have hlen : k - start < ((lines.drop start).take (stop - start)).length := by
        rw [List.length_take, List.length_drop]
        omega
      exact nthD_mem hlen
    exact hall _ hmem

theorem fmBounds_some {lines : List Str} {e : Nat}
    (h : fmBounds lines = some e) :
    nthD lines 0 [] = dashesLine ∧ 1 ≤ e ∧ e < lines.length ∧
      nthD lines e [] = dashesLine ∧
      ∀ k, 1 ≤ k → k < e → ¬ (nthD lines k [] = dashesLine) := by
  unfold fmBounds at h
  by_cases h0 : nthD lines 0 [] = dashesLine
  · rw [if_pos h0] at h
    unfold fmEndIdx at h
    cases hfi : findIdxL (fun l => decide (l = dashesLine)) (lines.drop 1) with
    | none => rw [hfi] at h; simp at h
    | some m =>
      rw [hfi] at h
      have h2 : some (m + 1) = some e := h
      injection h2 with h2
      subst h2
      obtain ⟨h1, h3, h4⟩ := findIdxL_some [] hfi
      rw [List.length_drop] at h1
      rw [nthD_drop] at h3
      refine ⟨h0, by omega, by omega, by
        rw [show m + 1 = 1 + m by omega]
        exact of_decide_eq_true h3, ?_⟩
      intro k hk1 hk2 hk3
      have := h4 (k - 1) (by omega)
      rw [nthD_drop, show 1 + (k - 1) = k by omega] at this
      rw [hk3] at this
      simp at this
  · rw [if_neg h0] at h
    simp at h

theorem fmBounds_of {lines : List Str} {e : Nat}
    (h0 : nthD lines 0 [] = dashesLine) (h1 : 1 ≤ e) (h2 : e < lines.length)
    (h3 : nthD lines e [] = dashesLine)
    (h4 : ∀ k, 1 ≤ k → k < e → ¬ (nthD lines k [] = dashesLine)) :
    fmBounds lines = some e := by
  unfold fmBounds
  rw [if_pos h0]
  unfold fmEndIdx
  rw [findIdxL_of [] (e - 1) (by rw [List.length_drop]; omega)
    (by rw [nthD_drop, show 1 + (e - 1) = e by omega]; exact decide_eq_true h3)
    (fun j hj => by
      rw [nthD_drop]
      exact decide_eq_false (h4 (1 + j) (by omega) (by omega)))]
  show some ((e - 1) + 1) = some e
  rw [show (e - 1) + 1 = e by omega]

/-! ### Characterisation of the tag scan -/

theorem tagScanF_some_spec (lines : List Str) (tag : Str) (e : Nat) :
    ∀ fuel j0 j, e - j0 ≤ fuel → j0 ≤ e →
      tagScanF lines tag e fuel j0 = some j →
      j0 ≤ j ∧ j ≤ e ∧
      (∀ k, j0 ≤ k → k < j → itemTest (nthD lines k []) = true ∧
        ¬ (itemCapture (nthD lines k []) = some tag)) ∧
      ¬ (j < e ∧ itemTest (nthD lines j []) = true) := by
  intro fuel
  induction fuel with
  | zero =>
    intro j0 j hfuel hj0 h
    simp only [tagScanF] at h
    injection h with h
    subst h
    refine ⟨Nat.le_refl _, hj0, fun k hk1 hk2 => absurd hk2 (by omega), ?_⟩
    rintro ⟨hlt, _⟩
    omega
  | succ fuel ih =>
    intro j0 j hfuel hj0 h
    simp only [tagScanF] at h
    by_cases hc : (decide (j0 < e) && itemTest (nthD lines j0 [])) = true
    · rw [if_pos hc] at h
      obtain ⟨hlt, htest⟩ := (Bool.and_eq_true _ _).mp hc
      have hlt2 : j0 < e := of_decide_eq_true hlt
      cases hcap : itemCapture (nthD lines j0 []) with
      | some cap =>
        rw [hcap] at h
        dsimp only at h
        by_cases hct : cap = tag
        · rw [if_pos hct] at h
          simp at h
        · rw [if_neg hct] at h
          obtain ⟨h1, h2, h3, h4⟩ := ih (j0 + 1) j (by omega) (by omega) h
          refine ⟨by omega, h2, ?_, h4⟩
          intro k hk1 hk2
          by_cases hkj : k = j0
          · subst hkj
            refine ⟨htest, ?_⟩
            rw [hcap]
            intro hf
            injection hf with hf
            exact hct hf
          · exact h3 k (by omega) hk2
      | none =>
        rw [hcap] at h
        dsimp only at h
        obtain ⟨h1, h2, h3, h4⟩ := ih (j0 + 1) j (by omega) (by omega) h
        refine ⟨by omega, h2, ?_, h4⟩
        intro k hk1 hk2
        by_cases hkj : k = j0
        · subst hkj
          refine ⟨htest, ?_⟩
          rw [hcap]
          simp
        · exact h3 k (by omega) hk2
    · rw [if_neg hc] at h
      injection h with h
      subst h
      refine ⟨Nat.le_refl _, hj0, fun k hk1 hk2 => absurd hk2 (by omega), ?_⟩
      rintro ⟨hlt, htest⟩
      exact hc (by simp [hlt, htest])

theorem tagScanF_none_reach (lines : List Str) (tag : Str) (e : Nat) :
    ∀ fuel j0 j, j0 ≤ j → j < e →
      (∀ k, j0 ≤ k → k < j → itemTest (nthD lines k []) = true ∧
        ¬ (itemCapture (nthD lines k []) = some tag)) →
      itemTest (nthD lines j []) = true →
      itemCapture (nthD lines j []) = some tag →
      j - j0 < fuel →
      tagScanF lines tag e fuel j0 = none := by
  intro fuel
  induction fuel with
  | zero =>
    intro j0 j hj0j hje hpass htest hcap hfuel
    omega
  | succ fuel ih =>
    intro j0 j hj0j hje hpass htest hcap hfuel
    by_cases heq : j0 = j
    · subst heq
      simp only [tagScanF]
      rw [if_pos (by simp [htest]; omega)]
      rw [hcap]
      dsimp only
      rw [if_pos rfl]
    · have hpass0 := hpass j0 (Nat.le_refl _) (by omega)
      simp only [tagScanF]
      rw [if_pos (by simp [hpass0.1]; omega)]
      cases hcap0 : itemCapture (nthD lines j0 []) with
      | some cap =>
        dsimp only
        rw [if_neg (fun hct => hpass0.2 (by rw [hcap0, hct]))]
        exact ih (j0 + 1) j (by omega) hje
          (fun k hk1 hk2 => hpass k (by omega) hk2) htest hcap (by omega)
      | none =>
        dsimp only
        exact ih (j0 + 1) j (by omega) hje
          (fun k hk1 hk2 => hpass k (by omega) hk2) htest hcap (by omega)

/-! ### C1: add-tag idempotence -/

theorem itemLine_cons (tag : Str) :
    itemLine tag = ' ' :: ' ' :: '-' :: ' ' :: tag := rfl

theorem itemTest_itemLine (tag : Str) : itemTest (itemLine tag) = true := rfl

theorem itemCapture_itemLine (tag : Str) (h1 : tag ≠ []) (h2 : '\n' ∉ tag)
    (h3 : '\r' ∉ tag) (h4 : '\u2028' ∉ tag) (h5 : '\u2029' ∉ tag) :
    itemCapture (itemLine tag) = some tag := by
  rw [itemLine_cons]
  show (if (isJsWs ' ' && isJsWs ' ' && !(decide (tag = [])) &&
      !(tag.any isLineTerm)) = true then some tag else none) = some tag
  have hany : tag.any isLineTerm = false := by
    rw [Bool.eq_false_iff]
    intro hf
    obtain ⟨c, hc, hterm⟩ := List.any_eq_true.mp hf
    unfold isLineTerm at hterm
    rcases (by simpa using hterm :
        ((c = '\n' ∨ c = '\r') ∨ c = '\u2028') ∨ c = '\u2029') with
      ((h | h) | h) | h
    · exact h2 (h ▸ hc)
    · exact h3 (h ▸ hc)
    · exact h4 (h ▸ hc)
    · exact h5 (h ▸ hc)
  rw [if_pos (by simp [isJsWs, h1, hany])]

theorem itemLine_ne_dashes (tag : Str) : ¬ (itemLine tag = dashesLine) := by
  intro h
  have h0 : nthD (itemLine tag) 0 ' ' = nthD dashesLine 0 ' ' := by rw [h]
  have h1 : (' ' : Char) = '-' := h0
  exact absurd h1 (by decide)

theorem itemLine_no_nl (tag : Str) (h2 : '\n' ∉ tag) : '\n' ∉ itemLine tag := by
  rw [itemLine_cons]
  intro hmem
  simp only [List.mem_cons] at hmem
  rcases hmem with h | h | h | h | h
  · exact absurd h (by decide)
  · exact absurd h (by decide)
  · exact absurd h (by decide)
  · exact absurd h (by decide)
  · exact h2 h

theorem itemLine_no_cr (tag : Str) (h2 : '\r' ∉ tag) : '\r' ∉ itemLine tag := by
  rw [itemLine_cons]
  intro hmem
  simp only [List.mem_cons] at hmem
  rcases hmem with h | h | h | h | h
  · exact absurd h (by decide)
  · exact absurd h (by decide)
  · exact absurd h (by decide)
  · exact absurd h (by decide)
  · exact h2 h

/-- C1 counterexample: for an inline task, a duplicate add-tag is not a
no-op; the tag is appended a second time, so applying the mutation twice
differs from applying it once. -/
theorem C1_inline_add_tag_not_idempotent :
    addTagInlineContent (toChars "abc123") (toChars "foo") (toChars "x")
      (addTagInlineContent (toChars "abc123") (toChars "foo") (toChars "x")
        (toChars "- [ ] foo 🆔 abc123")) ≠
    addTagInlineContent (toChars "abc123") (toChars "foo") (toChars "x")
      (toChars "- [ ] foo 🆔 abc123") := by
  intro h
  have h1 : addTagInlineContent (toChars "abc123") (toChars "foo") (toChars "x")
      (toChars "- [ ] foo 🆔 abc123") = toChars "- [ ] foo 🆔 abc123 #x" := by rfl
  have h2 : addTagInlineContent (toChars "abc123") (toChars "foo") (toChars "x")
      (toChars "- [ ] foo 🆔 abc123 #x") = toChars "- [ ] foo 🆔 abc123 #x #x" := by rfl
  rw [h1, h2] at h
  exact absurd (congrArg List.length h) (by decide)

/-- C1 (amended): the note-task add-tag mutation is idempotent: for content
without carriage returns and a nonempty tag containing no JavaScript line
terminator (LF, CR, U+2028, U+2029 — characters the dot of the duplicate
check never matches), a second add of the same tag finds the tag already
present in the frontmatter list and returns its input unchanged. For inline
tasks a duplicate add appends the tag again, so the texts differ. -/
theorem C1_add_tag_note_idempotent (content tag : Str)
    (hcr : '\r' ∉ content) (htag : tag ≠ []) (htn : '\n' ∉ tag)
    (htr : '\r' ∉ tag) (ht28 : '\u2028' ∉ tag) (ht29 : '\u2029' ∉ tag) :
    addTagNoteContent tag (addTagNoteContent tag content) =
      addTagNoteContent tag content := by
  have hclean : ∀ l ∈ splitLines content, '\n' ∉ l ∧ '\r' ∉ l := fun l hl =>
    ⟨splitLines_no_newline content l hl,
     fun hc => hcr (splitLines_chars content l hl '\r' hc)⟩
  have hnil : splitLines content ≠ [] := splitLines_ne_nil content
  cases hfm : fmBounds (splitLines content) with
  | none =>
    have h1 : addTagNoteContent tag content = content := by
      simp [addTagNoteContent, hfm]
    rw [h1]
    exact h1
  | some e =>
    obtain ⟨hfm0, he1, helen, hede, hmid⟩ := fmBounds_some hfm
    cases htags : findIdxFromTo (fun l => decide (l = tagsKey))
        (splitLines content) 1 e with
    | some i =>
      cases hscan : tagScanF (splitLines content) tag e e (i + 1) with
      | none =>
        have h1 : addTagNoteContent tag content = content := by
          simp [addTagNoteContent, hfm, htags, hscan]
        rw [h1]
        exact h1
      | some j =>
        obtain ⟨hi1, hie, hilen, hitag, hipre⟩ := findIdxFromTo_some htags
        have hitag2 : nthD (splitLines content) i [] = tagsKey :=
          of_decide_eq_true hitag
        obtain ⟨hji, hje, hpass, _⟩ := tagScanF_some_spec (splitLines content)
          tag e e (i + 1) j (by omega) (by omega) hscan
        have hjlen : j ≤ (splitLines content).length := by omega
        have h1 : addTagNoteContent tag content =
            joinLines (spliceIn j [itemLine tag] (splitLines content)) := by
          simp [addTagNoteContent, hfm, htags, hscan]
        have hlen2 : (spliceIn j [itemLine tag] (splitLines content)).length =
            (splitLines content).length + 1 := length_spliceIn hjlen
        have hclean2 : ∀ l ∈ spliceIn j [itemLine tag] (splitLines content),
            '\n' ∉ l ∧ '\r' ∉ l := by
          intro l hl
          rcases mem_spliceIn hl with hl | hl
          · exact hclean l hl
          · rw [List.mem_singleton] at hl
            subst hl
            exact ⟨itemLine_no_nl tag htn, itemLine_no_cr tag htr⟩
        have hsplit2 : splitLines (joinLines
            (spliceIn j [itemLine tag] (splitLines content))) =
            spliceIn j [itemLine tag] (splitLines content) :=
          splitLines_joinLines_clean _ (spliceIn_ne_nil hnil) hclean2
        have hfm2 : fmBounds (spliceIn j [itemLine tag] (splitLines content)) =
            some (e + 1) := by
          apply fmBounds_of
          · rw [nthD_spliceIn_lt (by omega) hjlen]
            exact hfm0
          · omega
          · rw [hlen2]; omega
          · rw [nthD_spliceIn_ge hjlen (by show j + 1 ≤ e + 1; omega)]
            simpa using hede
          · intro k hk1 hk2
            by_cases hkj : k < j
            · rw [nthD_spliceIn_lt hkj hjlen]
              exact hmid k hk1 (by omega)
            · by_cases hkj2 : k = j
              · subst hkj2
                rw [nthD_spliceIn_at1 hjlen]
                exact itemLine_ne_dashes tag
              · rw [nthD_spliceIn_ge hjlen (by show j + 1 ≤ k; omega)]
                exact hmid (k - 1) (by omega) (by omega)
        have htags2 : findIdxFromTo (fun l => decide (l = tagsKey))
            (spliceIn j [itemLine tag] (splitLines content)) 1 (e + 1) =
            some i := by
          apply findIdxFromTo_of
          · exact hi1
          · omega
          · rw [hlen2]; omega
          · rw [nthD_spliceIn_lt (by omega) hjlen]
            exact hitag
          · intro k hk1 hk2
            rw [nthD_spliceIn_lt (by omega) hjlen]
            exact hipre k hk1 hk2
        have hscan2 : tagScanF (spliceIn j [itemLine tag] (splitLines content))
            tag (e + 1) (e + 1) (i + 1) = none := by
          apply tagScanF_none_reach _ _ _ _ _ j hji (by omega) _ _ _ (by omega)
          · intro k hk1 hk2
            rw [nthD_spliceIn_lt hk2 hjlen]
            exact hpass k hk1 hk2
          · rw [nthD_spliceIn_at1 hjlen]
            exact itemTest_itemLine tag
          · rw [nthD_spliceIn_at1 hjlen]
            exact itemCapture_itemLine tag htag htn htr ht28 ht29
        rw [h1]
        simp only [addTagNoteContent, hsplit2, hfm2, htags2, hscan2]
    | none =>
      have h1 : addTagNoteContent tag content =
          joinLines (spliceIn e [tagsKey, itemLine tag] (splitLines content)) := by
        simp [addTagNoteContent, hfm, htags]
      have helen2 : e ≤ (splitLines content).length := by omega
      have hlen2 : (spliceIn e [tagsKey, itemLine tag] (splitLines content)).length =
          (splitLines content).length + 2 := length_spliceIn helen2
      have hclean2 : ∀ l ∈ spliceIn e [tagsKey, itemLine tag] (splitLines content),
          '\n' ∉ l ∧ '\r' ∉ l := by
        intro l hl
        rcases mem_spliceIn hl with hl | hl
        · exact hclean l hl
        · rcases List.mem_cons.mp hl with hl | hl
          · subst hl
            constructor
            · decide
            · decide
          · rw [List.mem_singleton] at hl
            subst hl
            exact ⟨itemLine_no_nl tag htn, itemLine_no_cr tag htr⟩
      have hsplit2 : splitLines (joinLines
          (spliceIn e [tagsKey, itemLine tag] (splitLines content))) =
          spliceIn e [tagsKey, itemLine tag] (splitLines content) :=
        splitLines_joinLines_clean _ (spliceIn_ne_nil hnil) hclean2
      have hfm2 : fmBounds (spliceIn e [tagsKey, itemLine tag] (splitLines content)) =
          some (e + 2) := by
        apply fmBounds_of
        · rw [nthD_spliceIn_lt (by omega) helen2]
          exact hfm0
        · omega
        · rw [hlen2]; omega
        · rw [nthD_spliceIn_ge helen2 (by show e + 2 ≤ e + 2; omega)]
          simpa using hede
        · intro k hk1 hk2
          by_cases hke : k < e
          · rw [nthD_spliceIn_lt hke helen2]
            exact hmid k hk1 hke
          · by_cases hke2 : k = e
            · subst hke2
              rw [nthD_spliceIn_at2a helen2]
              decide
            · have hke3 : k = e + 1 := by omega
              subst hke3
              rw [nthD_spliceIn_at2b helen2]
              exact itemLine_ne_dashes tag
      have htags2 : findIdxFromTo (fun l => decide (l = tagsKey))
          (spliceIn e [tagsKey, itemLine tag] (splitLines content)) 1 (e + 2) =
          some e := by
        apply findIdxFromTo_of
        · omega
        · omega
        · rw [hlen2]; omega
        · rw [nthD_spliceIn_at2a helen2]
          decide
        · intro k hk1 hk2
          rw [nthD_spliceIn_lt hk2 helen2]
          exact findIdxFromTo_none htags k hk1 hk2 (by omega)
      have hscan2 : tagScanF (spliceIn e [tagsKey, itemLine tag] (splitLines content))
          tag (e + 2) (e + 2) (e + 1) = none := by
        apply tagScanF_none_reach _ _ _ _ _ (e + 1) (Nat.le_refl _) (by omega) _ _ _
          (by omega)
        · intro k hk1 hk2
          omega
        · rw [nthD_spliceIn_at2b helen2]
          exact itemTest_itemLine tag
        · rw [nthD_spliceIn_at2b helen2]
          exact itemCapture_itemLine tag htag htn htr ht28 ht29
      rw [h1]
      simp only [addTagNoteContent, hsplit2, hfm2, htags2, hscan2]

theorem C1_add_tag_note_idempotent_witness :
    addTagNoteContent (toChars "x")
        (addTagNoteContent (toChars "x") (toChars "---\ntags:\n---\nbody")) =
      addTagNoteContent (toChars "x") (toChars "---\ntags:\n---\nbody") := by
  exact C1_add_tag_note_idempotent (toChars "---\ntags:\n---\nbody") (toChars "x")
    (by decide) (by decide) (by decide) (by decide) (by decide) (by decide)

/-! ### C8: star idempotence -/

theorem isInfixB_iff {p l : Str} : isInfixB p l = true ↔ p <:+: l := by
  unfold isInfixB
  rw [List.any_eq_true]
  constructor
  · rintro ⟨t, ht, hp⟩
    exact List.infix_iff_prefix_suffix.mpr
      ⟨t, List.isPrefixOf_iff_prefix.mp hp, (List.mem_tails _ _).mp ht⟩
  · intro hinf
    obtain ⟨t, hpre, hsuf⟩ := List.infix_iff_prefix_suffix.mp hinf
    exact ⟨t, (List.mem_tails _ _).mpr hsuf, List.isPrefixOf_iff_prefix.mpr hpre⟩

theorem prefix_isInfix {l1 l2 : Str} (h : l1 <+: l2) : l1 <:+: l2 := by
  obtain ⟨t, ht⟩ := h
  exact ⟨[], t, by simpa using ht⟩

theorem findIdxL_none_of_idx {p : α → Bool} {ls : List α} (d : α)
    (h : ∀ j, j < ls.length → p (nthD ls j d) = false) : findIdxL p ls = none := by
  induction ls with
  | nil => rfl
  | cons x xs ih =>
    simp only [findIdxL]
    rw [if_neg (by have := h 0 (by simp); simpa using this)]
    rw [ih (fun j hj => h (j + 1) (by simpa using hj))]
    rfl

theorem stable_tier_some {p : Str → Bool} {lines lines2 : List Str} {i : Nat}
    (hlen : lines2.length = lines.length)
    (mono : ∀ j, ¬ j = i → p (nthD lines2 j []) = true → p (nthD lines j []) = true)
    (keep : p (nthD lines i []) = true → p (nthD lines2 i []) = true)
    (h : findIdxL p lines = some i) : findIdxL p lines2 = some i := by
  obtain ⟨h1, h2, h3⟩ := findIdxL_some [] h
  apply findIdxL_of [] i (by omega)
  · exact keep h2
  · intro j hj
    by_cases hp2 : p (nthD lines2 j []) = true
    · exact absurd (mono j (by omega) hp2) (by rw [h3 j hj]; simp)
    · exact Bool.eq_false_iff.mpr (fun hf => hp2 hf)

theorem stable_tier_none {p : Str → Bool} {lines lines2 : List Str} {i : Nat}
    (hlen : lines2.length = lines.length)
    (mono : ∀ j, ¬ j = i → p (nthD lines2 j []) = true → p (nthD lines j []) = true)
    (hq : ¬ p (nthD lines2 i []) = true)
    (h : findIdxL p lines = none) : findIdxL p lines2 = none := by
  have hall := findIdxL_none h
  apply findIdxL_none_of_idx []
  intro j hj
  by_cases hji : j = i
  · subst hji
    exact Bool.eq_false_iff.mpr (fun hf => hq hf)
  · by_cases hp2 : p (nthD lines2 j []) = true
    · have := hall (nthD lines j []) (nthD_mem (by omega))
      exact absurd (mono j hji hp2) (by rw [this]; simp)
    · exact Bool.eq_false_iff.mpr (fun hf => hp2 hf)

theorem stable_tier_new {p : Str → Bool} {lines lines2 : List Str} {i : Nat}
    (hlen : lines2.length = lines.length) (hi : i < lines.length)
    (mono : ∀ j, ¬ j = i → p (nthD lines2 j []) = true → p (nthD lines j []) = true)
    (hq : p (nthD lines2 i []) = true)
    (h : findIdxL p lines = none) : findIdxL p lines2 = some i := by
  have hall := findIdxL_none h
  apply findIdxL_of [] i (by omega) hq
  intro j hj
  by_cases hp2 : p (nthD lines2 j []) = true
  · have := hall (nthD lines j []) (nthD_mem (by omega))
    exact absurd (mono j (by omega) hp2) (by rw [this]; simp)
  · exact Bool.eq_false_iff.mpr (fun hf => hp2 hf)

theorem findTaskLine_some_lt {lines : List Str} {a b : Str} {i : Nat}
    (h : findTaskLineByIdOrText lines a b = some i) : i < lines.length := by
  unfold findTaskLineByIdOrText at h
  cases h1 : findIdxL (fun l => isInfixB (emojiIdPat a) l) lines with
  | some i1 =>
    rw [h1] at h
    injection h with h
    subst h
    exact (findIdxL_some [] h1).1
  | none =>
    rw [h1] at h
    cases h2 : findIdxL (fun l => isInfixB (dataviewIdPat a) l) lines with
    | some i2 =>
      rw [h2] at h
      injection h with h
      subst h
      exact (findIdxL_some [] h2).1
    | none =>
      rw [h2] at h
      exact (findIdxL_some [] h).1

/-- Search stability: if the located line only grows (as an infix) and every
other line only shrinks (to a prefix), the three-tier search still finds the
same index. -/
theorem findTaskLine_stable {lines lines2 : List Str} {taskId taskText : Str}
    {i : Nat} (h : findTaskLineByIdOrText lines taskId taskText = some i)
    (hlen : lines2.length = lines.length)
    (hpre : ∀ j, ¬ j = i → nthD lines2 j [] <+: nthD lines j [])
    (hext : nthD lines i [] <:+: nthD lines2 i []) :
    findTaskLineByIdOrText lines2 taskId taskText = some i := by
  have hi : i < lines.length := findTaskLine_some_lt h
  have mono : ∀ pat : Str, ∀ j, ¬ j = i →
      isInfixB pat (nthD lines2 j []) = true →
      isInfixB pat (nthD lines j []) = true := by
    intro pat j hji hinf
    exact isInfixB_iff.mpr ((isInfixB_iff.mp hinf).trans (prefix_isInfix (hpre j hji)))
  have keep : ∀ pat : Str, isInfixB pat (nthD lines i []) = true →
      isInfixB pat (nthD lines2 i []) = true := by
    intro pat hinf
    exact isInfixB_iff.mpr ((isInfixB_iff.mp hinf).trans hext)
  unfold findTaskLineByIdOrText at h ⊢
  cases h1 : findIdxL (fun l => isInfixB (emojiIdPat taskId) l) lines with
  | some i1 =>
    rw [h1] at h
    injection h with h
    subst h
    rw [stable_tier_some hlen (mono _) (keep _) h1]
  | none =>
    rw [h1] at h
    by_cases hq1 : isInfixB (emojiIdPat taskId) (nthD lines2 i []) = true
    · rw [stable_tier_new hlen hi (mono _) hq1 h1]
    · rw [stable_tier_none hlen (mono _) hq1 h1]
      cases h2 : findIdxL (fun l => isInfixB (dataviewIdPat taskId) l) lines with
      | some i2 =>
        rw [h2] at h
        injection h with h
        subst h
        rw [stable_tier_some hlen (mono _) (keep _) h2]
      | none =>
        rw [h2] at h
        by_cases hq2 : isInfixB (dataviewIdPat taskId) (nthD lines2 i []) = true
        · rw [stable_tier_new hlen hi (mono _) hq2 h2]
        · rw [stable_tier_none hlen (mono _) hq2 h2]
          exact stable_tier_some hlen (mono _) (keep _) h

/-- C8: adding a star to an inline task is idempotent on every document
text: a second application returns its input unchanged, and whenever the
located line already contains the star glyph the operation returns the text
unchanged, a successful no-op rather than an error. -/
theorem C8_add_star_idempotent (taskId taskText content : Str) :
    addStarInlineContent taskId taskText
        (addStarInlineContent taskId taskText content) =
      addStarInlineContent taskId taskText content ∧
    (∀ i, findTaskLineByIdOrText (splitLines content) taskId taskText = some i →
      isInfixB (toChars "⭐") (nthD (splitLines content) i []) = true →
      addStarInlineContent taskId taskText content = content) := by
  constructor
  · cases hfind : findTaskLineByIdOrText (splitLines content) taskId taskText with
    | none =>
      have h1 : addStarInlineContent taskId taskText content = content := by
        simp [addStarInlineContent, hfind]
      rw [h1]
      exact h1
    | some i =>
      by_cases hstar : isInfixB (toChars "⭐") (nthD (splitLines content) i []) = true
      · have h1 : addStarInlineContent taskId taskText content = content := by
          simp [addStarInlineContent, hfind, hstar]
        rw [h1]
        exact h1
      · have hi : i < (splitLines content).length := findTaskLine_some_lt hfind
        have h1 : addStarInlineContent taskId taskText content =
            joinLines ((splitLines content).set i
              (nthD (splitLines content) i [] ++ toChars " ⭐")) := by
          simp [addStarInlineContent, hfind, hstar]
        have hnl2 : ∀ l ∈ (splitLines content).set i
            (nthD (splitLines content) i [] ++ toChars " ⭐"), '\n' ∉ l := by
          intro l hl
          rcases List.mem_or_eq_of_mem_set hl with hl | hl
          · exact splitLines_no_newline content l hl
          · subst hl
            intro hmem
            rcases List.mem_append.mp hmem with hmem | hmem
            · exact splitLines_no_newline content _ (nthD_mem hi) hmem
            · rcases List.mem_cons.mp hmem with hmem | hmem
              · exact absurd hmem (by decide)
              · rw [List.mem_singleton] at hmem
                exact absurd hmem (by decide)
        have hne2 : (splitLines content).set i
            (nthD (splitLines content) i [] ++ toChars " ⭐") ≠ [] := by
          intro hf
          have := congrArg List.length hf
          rw [List.length_set] at this
          exact splitLines_ne_nil content (List.length_eq_zero.mp (by simpa using this))
        have hsplit2 : splitLines (joinLines ((splitLines content).set i
            (nthD (splitLines content) i [] ++ toChars " ⭐"))) =
            normLines ((splitLines content).set i
              (nthD (splitLines content) i [] ++ toChars " ⭐")) :=
          splitLines_joinLines _ hne2 hnl2
        have hlast : (nthD ((splitLines content).set i
            (nthD (splitLines content) i [] ++ toChars " ⭐")) i []).getLast? =
            some '⭐' := by
          rw [nthD_set_self hi]
          rw [show nthD (splitLines content) i [] ++ toChars " ⭐" =
            (nthD (splitLines content) i [] ++ [' ']) ++ ['⭐'] by
              rw [List.append_assoc]; rfl]
          exact List.getLast?_concat _
        have hnth_i : nthD (normLines ((splitLines content).set i
            (nthD (splitLines content) i [] ++ toChars " ⭐"))) i [] =
            nthD (splitLines content) i [] ++ toChars " ⭐" := by
          rw [nthD_normLines_of_last_ne _ _ _ (by rw [hlast]; decide)]
          exact nthD_set_self hi
        have hlen2 : (normLines ((splitLines content).set i
            (nthD (splitLines content) i [] ++ toChars " ⭐"))).length =
            (splitLines content).length := by
          rw [length_normLines, List.length_set]
        have hfind2 : findTaskLineByIdOrText
            (normLines ((splitLines content).set i
              (nthD (splitLines content) i [] ++ toChars " ⭐")))
            taskId taskText = some i := by
          apply findTaskLine_stable hfind hlen2
          · intro j hji
            have hp := nthD_normLines_prefix ((splitLines content).set i
              (nthD (splitLines content) i [] ++ toChars " ⭐")) j []
            rw [nthD_set_ne hji] at hp
            exact hp
          · rw [hnth_i]
            exact prefix_isInfix (List.prefix_append _ _)
        have hstar2 : isInfixB (toChars "⭐")
            (nthD (normLines ((splitLines content).set i
              (nthD (splitLines content) i [] ++ toChars " ⭐"))) i []) = true := by
          rw [hnth_i]
          apply isInfixB_iff.mpr
          exact ⟨nthD (splitLines content) i [] ++ [' '], [], by simp [toChars]⟩
        rw [h1]
        simp only [addStarInlineContent, hsplit2, hfind2, hstar2, if_true]
  · intro i hfind hstar
    simp [addStarInlineContent, hfind, hstar]

theorem C8_add_star_idempotent_witness :
    addStarInlineContent (toChars "abc123") (toChars "foo")
      (toChars "- [ ] foo 🆔 abc123 ⭐") = toChars "- [ ] foo 🆔 abc123 ⭐" := by
  exact (C8_add_star_idempotent (toChars "abc123") (toChars "foo")
    (toChars "- [ ] foo 🆔 abc123 ⭐")).2 0 (by rfl) (by rfl)

end TasksMap
